import Mathlib

/-!
Verification of the UNAM-INEGI ENOE consolidation pipeline.

Shallow embedding of the core of the repository:
* src/etl-enoe/parquet.py — file classification, encoding/delimiter
  sniffing, schema union, robust CSV loading, streaming Parquet writing;
* src/etl-enoe/microdatos/apply_enoe_labels.py — dictionary consolidation
  and label lookup;
* src/etl-enoe/label_ent_mun.py — geographic catalog check and labeling.

Modelling conventions:
* pandas/polars tables are `Table`: an ordered column-name list plus rows of
  positional cells; a cell is NA, a string, or an integer.
* Python exceptions are `Option`/sum results (`none` = the call raised).
* Python `dict` is modelled as the chronological list of insertion events;
  lookup returns the value of the last event for a key, which is exactly
  the observable behaviour of dict assignment plus dict indexing.
* Python `str(int)`, `str.strip`, `str.upper`, `str.lower`, `f"{n:02d}"`
  and the regex character class `\d` are re-implemented over `List Char`
  (ASCII semantics) so that they reduce inside the kernel.
-/

/-! ### Python-style string primitives -/

/-- ASCII digit test, modelling the regex class `\d` as the repository uses
it (all data is ASCII). -/
def pyIsDigit (c : Char) : Bool := decide (48 ≤ c.toNat ∧ c.toNat ≤ 57)

/-- Decimal digits of a natural number, most significant first, with a fuel
argument so the definition is structural and kernel-reducible.
Models the digits of Python `str(n)` for `n ≥ 0`. -/
def natDigitsAux : Nat → Nat → List Char
  | 0, _ => []
  | fuel + 1, n =>
    if n < 10 then [Nat.digitChar n]
    else natDigitsAux fuel (n / 10) ++ [Nat.digitChar (n % 10)]

/-- Decimal digit list of a natural number (no leading zeros, `0 ↦ "0"`). -/
def natDigits (n : Nat) : List Char := natDigitsAux (n + 1) n

/-- Python `str(n)` for a natural number. -/
def natStr (n : Nat) : String := ⟨natDigits n⟩

/-- Python `str(i)` for an arbitrary integer: optional minus sign followed by
the decimal digits of the absolute value. -/
def intDigits (i : Int) : List Char :=
  if i < 0 then '-' :: natDigits i.natAbs else natDigits i.natAbs

/-- Python `str(i)` for an integer. -/
def intStr (i : Int) : String := ⟨intDigits i⟩

/-- Python `f"{n:02d}"` for `0 ≤ n < 100`: two-digit zero-padded decimal. -/
def pad2 (n : Nat) : String :=
  if n < 10 then ⟨['0', Nat.digitChar n]⟩ else ⟨natDigits n⟩

/-- Whitespace characters stripped by Python `str.strip()` (ASCII subset). -/
def isPyWS (c : Char) : Bool :=
  c = ' ' || c = '\t' || c = '\n' || c = '\r' || c = '\x0b' || c = '\x0c'

/-- Python `str.strip()`: drop whitespace from both ends. -/
def pyStrip (s : String) : String :=
  ⟨(((s.data.dropWhile isPyWS).reverse.dropWhile isPyWS).reverse)⟩

/-- Python `str.upper()` (ASCII semantics, which covers the repository's
column names and category codes). -/
def pyUpper (s : String) : String := ⟨s.data.map Char.toUpper⟩

/-- Python `str.lower()` (ASCII semantics). -/
def pyLower (s : String) : String := ⟨s.data.map Char.toLower⟩

/-- Fullmatch of `-?\d+` on a character list. -/
def isIntData : List Char → Bool
  | [] => false
  | c :: rest =>
    if c = '-' then !rest.isEmpty && rest.all pyIsDigit
    else (c :: rest).all pyIsDigit

/-- Fullmatch of the regex `-?\d+` used by `normalize_code_keys` and the
lookup UDF of apply_enoe_labels.py to decide whether a code is numeric. -/
def isIntString (s : String) : Bool := isIntData s.data

/-- Numeric value of a digit list (most significant first). -/
def digitsVal (l : List Char) : Nat :=
  l.foldl (fun a c => a * 10 + (c.toNat - 48)) 0

/-- Python `int(s)` on a string matching `-?\d+`. -/
def strToInt (s : String) : Int :=
  match s.data with
  | '-' :: rest => - (digitsVal rest : Int)
  | l => (digitsVal l : Int)

/-! ### Facts about the decimal printer -/

theorem natDigitsAux_succ (fuel n : Nat) :
    natDigitsAux (fuel + 1) n =
      if n < 10 then [Nat.digitChar n]
      else natDigitsAux fuel (n / 10) ++ [Nat.digitChar (n % 10)] := rfl

theorem natDigitsAux_fuel_irrel (n : Nat) :
    ∀ f₁ f₂, n < f₁ → n < f₂ → natDigitsAux f₁ n = natDigitsAux f₂ n := by
  induction n using Nat.strong_induction_on with
  | _ n ih =>
    intro f₁ f₂ h₁ h₂
    match f₁, f₂ with
    | g₁ + 1, g₂ + 1 =>
      rw [natDigitsAux_succ, natDigitsAux_succ]
      by_cases hn : n < 10
      · simp [hn]
      · simp only [hn, if_false]
        have hdiv : n / 10 < n := Nat.div_lt_self (by omega) (by omega)
        rw [ih (n / 10) hdiv g₁ g₂ (by omega) (by omega)]

theorem natDigits_unfold (n : Nat) :
    natDigits n =
      if n < 10 then [Nat.digitChar n]
      else natDigits (n / 10) ++ [Nat.digitChar (n % 10)] := by
  unfold natDigits
  rw [natDigitsAux_succ]
  by_cases hn : n < 10
  · simp [hn]
  · simp only [hn, if_false]
    have hdiv : n / 10 < n := Nat.div_lt_self (by omega) (by omega)
    rw [natDigitsAux_fuel_irrel (n / 10) n (n / 10 + 1) hdiv (by omega)]

theorem natDigits_ne_nil (n : Nat) : natDigits n ≠ [] := by
  rw [natDigits_unfold]
  by_cases hn : n < 10 <;> simp [hn]

theorem natDigits_two_le (n : Nat) (h : 10 ≤ n) : 2 ≤ (natDigits n).length := by
  rw [natDigits_unfold]
  have h' : ¬ n < 10 := by omega
  simp only [h', if_false, List.length_append, List.length_cons, List.length_nil]
  have h0 : natDigits (n / 10) ≠ [] := natDigits_ne_nil (n / 10)
  have : (natDigits (n / 10)).length ≠ 0 := by
    simpa [List.length_eq_zero] using h0
  omega

theorem digitChar_eq_zero_iff (d : Nat) (h : d < 10) :
    Nat.digitChar d = '0' ↔ d = 0 := by
  interval_cases d <;> simp <;> decide

theorem digitChar_eq_one_iff (d : Nat) (h : d < 10) :
    Nat.digitChar d = '1' ↔ d = 1 := by
  interval_cases d <;> simp <;> decide

theorem natDigits_head_zero (n : Nat) :
    ∀ c, natDigits n = '0' :: c → n = 0 := by
  induction n using Nat.strong_induction_on with
  | _ n ih =>
    intro c h
    rw [natDigits_unfold] at h
    by_cases hn : n < 10
    · simp only [hn, if_true, List.cons.injEq] at h
      exact (digitChar_eq_zero_iff n hn).mp h.1
    · simp only [hn, if_false] at h
      obtain ⟨d, rest, hd⟩ : ∃ d rest, natDigits (n / 10) = d :: rest := by
        cases hnd : natDigits (n / 10) with
        | nil => exact absurd hnd (natDigits_ne_nil _)
        | cons d rest => exact ⟨d, rest, rfl⟩
      rw [hd] at h
      simp only [List.cons_append, List.cons.injEq] at h
      have hdiv : n / 10 < n := Nat.div_lt_self (by omega) (by omega)
      have hz : n / 10 = 0 := ih (n / 10) hdiv rest (by rw [hd, h.1])
      omega

theorem natDigits_eq_one (n : Nat) (h : natDigits n = ['1']) : n = 1 := by
  by_cases hn : n < 10
  · rw [natDigits_unfold] at h
    simp only [hn, if_true, List.cons.injEq] at h
    exact (digitChar_eq_one_iff n hn).mp h.1
  · have h2 := natDigits_two_le n (by omega)
    rw [h] at h2
    simp at h2

theorem natDigits_ne_zero_one (n : Nat) : natDigits n ≠ ['0', '1'] := by
  intro h
  have h0 : n = 0 := natDigits_head_zero n ['1'] h
  rw [h0] at h
  simp [natDigits, natDigitsAux] at h

theorem intStr_eq_one (i : Int) (h : intStr i = "1") : i = 1 := by
  unfold intStr intDigits at h
  by_cases hi : i < 0
  · simp only [hi, if_true] at h
    have hdata : '-' :: natDigits i.natAbs = ['1'] := congrArg String.data h
    simp at hdata
  · simp only [hi, if_false] at h
    have hd : natDigits i.natAbs = ['1'] := congrArg String.data h
    have := natDigits_eq_one _ hd
    omega

theorem intStr_ne_padded_one (i : Int) : intStr i ≠ "01" := by
  intro h
  unfold intStr intDigits at h
  by_cases hi : i < 0
  · simp only [hi, if_true] at h
    have hdata : '-' :: natDigits i.natAbs = ['0', '1'] := congrArg String.data h
    simp only [List.cons.injEq] at hdata
    exact absurd hdata.1 (by decide)
  · simp only [hi, if_false] at h
    exact natDigits_ne_zero_one _ (congrArg String.data h)

theorem intStr_ne_empty (i : Int) : intStr i ≠ "" := by
  intro h
  unfold intStr intDigits at h
  by_cases hi : i < 0
  · simp only [hi, if_true] at h
    have hdata : '-' :: natDigits i.natAbs = [] := congrArg String.data h
    simp at hdata
  · simp only [hi, if_false] at h
    exact natDigits_ne_nil _ (congrArg String.data h)

theorem pad2_length (n : Nat) (h : n < 100) : (pad2 n).data.length = 2 := by
  unfold pad2
  by_cases hn : n < 10
  · simp [hn]
  · simp only [hn, if_false]
    have hlow := natDigits_two_le n (by omega)
    have hone : natDigits (n / 10) = [Nat.digitChar (n / 10)] := by
      rw [natDigits_unfold]
      have : n / 10 < 10 := by omega
      simp [this]
    have hup : (natDigits n).length ≤ 2 := by
      rw [natDigits_unfold]
      simp only [hn, if_false, List.length_append, hone]
      simp
    show (natDigits n).length = 2
    omega

theorem pad2_ne_one (n : Nat) (h : n < 100) : pad2 n ≠ "1" := by
  intro he
  have h2 := pad2_length n h
  rw [he] at h2
  exact absurd h2 (by decide)

theorem pad2_eq_padded_one_iff (n : Nat) (h : n < 100) :
    pad2 n = "01" ↔ n = 1 := by
  constructor
  · intro he
    unfold pad2 at he
    by_cases hn : n < 10
    · simp only [hn, if_true] at he
      have hdata : ['0', Nat.digitChar n] = ['0', '1'] := congrArg String.data he
      simp only [List.cons.injEq] at hdata
      exact (digitChar_eq_one_iff n hn).mp hdata.2.1
    · simp only [hn, if_false] at he
      exact absurd (congrArg String.data he) (natDigits_ne_zero_one n)
  · intro hn
    subst hn
    decide

theorem pad2_ne_empty (n : Nat) : pad2 n ≠ "" := by
  intro h
  unfold pad2 at h
  by_cases hn : n < 10
  · simp only [hn, if_true] at h
    have hdata : (['0', Nat.digitChar n] : List Char) = [] := congrArg String.data h
    simp at hdata
  · simp only [hn, if_false] at h
    exact natDigits_ne_nil _ (congrArg String.data h)

/-! ### Facts about upper-casing and numeric detection -/

theorem char_toNat_ofNat (n : Nat) (h : n.isValidChar) :
    (Char.ofNat n).toNat = n := by
  simp [Char.ofNat, h, Char.ofNatAux, Char.toNat, UInt32.toNat, BitVec.toNat_ofNatLt]

/-- An upper-cased character that is an ASCII digit or the minus sign was
already that character: `Char.toUpper` only moves `a`–`z`, and those land
on `A`–`Z`. -/
theorem toUpper_fix_of_intChar (c : Char)
    (h : pyIsDigit (Char.toUpper c) = true ∨ Char.toUpper c = '-') :
    Char.toUpper c = c := by
  by_cases hl : c.toNat ≥ 97 ∧ c.toNat ≤ 122
  · exfalso
    have hup : Char.toUpper c = Char.ofNat (c.toNat - 32) := by
      unfold Char.toUpper
      exact if_pos hl
    have hv : (c.toNat - 32).isValidChar := Or.inl (by omega)
    have htn : (Char.toUpper c).toNat = c.toNat - 32 := by
      rw [hup]
      exact char_toNat_ofNat _ hv
    rcases h with h | h
    · have hb : 48 ≤ (Char.toUpper c).toNat ∧ (Char.toUpper c).toNat ≤ 57 := by
        simpa [pyIsDigit] using h
      omega
    · have : (Char.toUpper c).toNat = ('-').toNat := by rw [h]
      have h45 : (Char.toUpper c).toNat = 45 := this
      omega
  · unfold Char.toUpper
    exact if_neg hl

/-- Every character of a string matching `-?\d+` is a digit or a minus. -/
theorem intlike_chars {l : List Char} (h : isIntData l = true) :
    ∀ c ∈ l, pyIsDigit c = true ∨ c = '-' := by
  intro c hc
  cases l with
  | nil => simp at hc
  | cons c₀ rest =>
    unfold isIntData at h
    by_cases h₀ : c₀ = '-'
    · simp only [h₀, if_true, Bool.and_eq_true] at h
      rcases List.mem_cons.mp hc with hc | hc
      · exact Or.inr (hc.trans h₀)
      · exact Or.inl ((List.all_eq_true.mp h.2) c hc)
    · simp only [h₀, if_false] at h
      exact Or.inl ((List.all_eq_true.mp h) c hc)

/-- If the upper-cased string matches `-?\d+` then upper-casing did not
change the string. -/
theorem pyUpper_fix_of_isIntString (s : String)
    (h : isIntString (pyUpper s) = true) : pyUpper s = s := by
  have hchars : ∀ c ∈ s.data, Char.toUpper c = c := by
    intro c hc
    have hmem : Char.toUpper c ∈ (pyUpper s).data :=
      List.mem_map_of_mem Char.toUpper hc
    have := intlike_chars (l := (pyUpper s).data) h (Char.toUpper c) hmem
    exact toUpper_fix_of_intChar c this
  have hmap : s.data.map Char.toUpper = s.data := by
    have := List.map_congr_left hchars
    simpa using this
  unfold pyUpper
  rw [hmap]

/-! ### Python dict as a chronological event list

A Python `dict` built by successive assignments is modelled by the list of
`(key, value)` assignment events in chronological order; `alookup` returns
the value of the last assignment to the key, i.e. exactly what indexing the
final dict returns, and `alookup = none` says the key is absent. -/

/-- Value of the last assignment to `k`, if any. -/
def alookup (m : List (String × String)) (k : String) : Option String :=
  m.reverse.lookup k

theorem alookup_nil (k : String) : alookup [] k = none := rfl

theorem alookup_append (a b : List (String × String)) (k : String) :
    alookup (a ++ b) k = (alookup b k).or (alookup a k) := by
  unfold alookup
  rw [List.reverse_append, List.lookup_append]

theorem alookup_cons (k' v : String) (m : List (String × String)) (k : String) :
    alookup ((k', v) :: m) k =
      (alookup m k).or (if k = k' then some v else none) := by
  have h1 : (k', v) :: m = [(k', v)] ++ m := rfl
  rw [h1, alookup_append]
  unfold alookup
  by_cases h : k = k'
  · simp [List.lookup, h]
  · have hb : (k == k') = false := beq_eq_false_iff_ne.mpr h
    simp [List.lookup, h, hb]

/-- Assigning a whole constant-value segment `ks.map (k ↦ (k, v))`: the
lookup hits iff the key is in `ks`. -/
theorem alookup_const_seg (ks : List String) (v k : String) :
    alookup (ks.map (fun key => (key, v))) k =
      if k ∈ ks then some v else none := by
  induction ks with
  | nil => simp [alookup_nil]
  | cons k₀ rest ih =>
    simp only [List.map_cons]
    rw [alookup_cons, ih]
    by_cases he : k = k₀
    · subst he
      by_cases hk : k ∈ rest <;> simp [hk, Option.or]
    · by_cases hk : k ∈ rest <;> simp [hk, he, Option.or]

/-- If a lookup over a concatenation of segments hits, some segment hits. -/
theorem alookup_flat_some {segs : List (List (String × String))} {k v : String}
    (h : alookup segs.flatten k = some v) :
    ∃ m ∈ segs, alookup m k = some v := by
  induction segs with
  | nil => simp [alookup_nil] at h
  | cons s rest ih =>
    rw [List.flatten_cons, alookup_append] at h
    cases hr : alookup rest.flatten k with
    | some w =>
      rw [hr] at h
      simp only [Option.or] at h
      obtain ⟨m, hm, hmk⟩ := ih (by rw [hr, h])
      exact ⟨m, List.mem_cons_of_mem _ hm, hmk⟩
    | none =>
      rw [hr] at h
      simp only [Option.or] at h
      exact ⟨s, List.mem_cons_self _ _, h⟩

/-- If no segment hits, the concatenation does not hit. -/
theorem alookup_flat_none {segs : List (List (String × String))} {k : String}
    (h : ∀ m ∈ segs, alookup m k = none) :
    alookup segs.flatten k = none := by
  induction segs with
  | nil => simp [alookup_nil]
  | cons s rest ih =>
    rw [List.flatten_cons, alookup_append]
    rw [ih (fun m hm => h m (List.mem_cons_of_mem _ hm)),
        h s (List.mem_cons_self _ _)]
    rfl

/-! ### Stable insertion sort (models Python `sorted`, which is stable) -/

/-- Insert `x` before the first element `y` with `le x y`; identical to the
placement Python's stable sort gives an element that arrives earlier in the
input than everything already in the sorted suffix. -/
def insertLe (le : α → α → Bool) (x : α) : List α → List α
  | [] => [x]
  | y :: ys => if le x y then x :: y :: ys else y :: insertLe le x ys

/-- Stable insertion sort. -/
def sortLe (le : α → α → Bool) (l : List α) : List α :=
  l.foldr (insertLe le) []

theorem insertLe_perm (le : α → α → Bool) (x : α) (l : List α) :
    (insertLe le x l).Perm (x :: l) := by
  induction l with
  | nil => exact List.Perm.refl _
  | cons y ys ih =>
    unfold insertLe
    by_cases h : le x y
    · simp [h]
    · simp only [h, if_false]
      exact (List.Perm.cons y ih).trans (List.Perm.swap x y ys)

theorem sortLe_perm (le : α → α → Bool) (l : List α) :
    (sortLe le l).Perm l := by
  induction l with
  | nil => exact List.Perm.refl _
  | cons x xs ih =>
    exact (insertLe_perm le x (sortLe le xs)).trans (List.Perm.cons x ih)

theorem mem_sortLe (le : α → α → Bool) (l : List α) (a : α) :
    a ∈ sortLe le l ↔ a ∈ l :=
  (sortLe_perm le l).mem_iff

theorem insertLe_pairwise (le : α → α → Bool)
    (htot : ∀ a b, le a b = true ∨ le b a = true)
    (htrans : ∀ a b c, le a b = true → le b c = true → le a c = true)
    (x : α) (l : List α) (hl : l.Pairwise (fun a b => le a b = true)) :
    (insertLe le x l).Pairwise (fun a b => le a b = true) := by
  induction l with
  | nil => simp [insertLe]
  | cons y ys ih =>
    obtain ⟨hy, hys⟩ := List.pairwise_cons.mp hl
    unfold insertLe
    by_cases h : le x y
    · rw [if_pos h]
      refine List.Pairwise.cons ?_ (List.Pairwise.cons hy hys)
      intro b hb
      rcases List.mem_cons.mp hb with hb1 | hb1
      · rw [hb1]; exact h
      · exact htrans x y b h (hy b hb1)
    · rw [if_neg h]
      refine List.Pairwise.cons ?_ (ih hys)
      intro b hb
      rcases List.mem_cons.mp ((insertLe_perm le x ys).mem_iff.mp hb) with hb1 | hb1
      · rw [hb1]
        rcases htot x y with hxy | hyx
        · exact absurd hxy h
        · exact hyx
      · exact hy b hb1

theorem sortLe_pairwise (le : α → α → Bool)
    (htot : ∀ a b, le a b = true ∨ le b a = true)
    (htrans : ∀ a b c, le a b = true → le b c = true → le a c = true)
    (l : List α) :
    (sortLe le l).Pairwise (fun a b => le a b = true) := by
  induction l with
  | nil => simp [sortLe]
  | cons x xs ih => exact insertLe_pairwise le htot htrans x _ ih

/-! ### Data model: pandas tables -/

/-- One cell of a loaded table: missing (`pd.NA`/`NaN`), an opaque string
(everything is loaded `dtype=str`), or an integer (the typed metadata
columns `anio`/`trimestre`). -/
inductive Cell where
  | na : Cell
  | str (v : String) : Cell
  | int (n : Int) : Cell
deriving DecidableEq

/-- A DataFrame: ordered column names and positional rows. -/
structure Table where
  cols : List String
  rows : List (List Cell)
deriving DecidableEq

/-- Python `str(x)` of a cell as pandas `astype(str)` renders it
(missing values print as `nan`). -/
def cellToStr : Cell → String
  | Cell.na => "nan"
  | Cell.str v => v
  | Cell.int n => intStr n

/-! ### parquet.py — utilities -/

/-- Substring test on character lists (Python `pat in hay`). -/
def listContainsSub (pat : List Char) : List Char → Bool
  | [] => pat.isEmpty
  | c :: t => if pat.isPrefixOf (c :: t) then true else listContainsSub pat t

/-- Python `pat in hay` on strings. -/
def strContains (hay pat : String) : Bool := listContainsSub pat.data hay.data

def MODULES : List String := ["VIVT", "HOGT", "SDEMT", "COE1T", "COE2T"]

/-- parquet.py `detect_module_from_filename`: upper-case the name, return
the first module tag occurring as a substring, with the COE1/COE2 fallbacks. -/
def detect_module_from_filename (fname : String) : Option String :=
  let up := pyUpper fname
  match MODULES.find? (fun tag => strContains up tag) with
  | some tag => some tag
  | none =>
    if strContains up "COE1" then some "COE1T"
    else if strContains up "COE2" then some "COE2T"
    else none

/-- ASCII word character, the regex class `\w` (for `\b`). -/
def isWordChar (c : Char) : Bool :=
  pyIsDigit c || decide (65 ≤ c.toNat ∧ c.toNat ≤ 90) ||
    decide (97 ≤ c.toNat ∧ c.toNat ≤ 122) || c = '_'

def digitVal (c : Char) : Nat := c.toNat - 48

/-- The word-boundary `\b` after the quarter digit: end of string or a
non-word character next. -/
def boundaryOk : List Char → Bool
  | [] => true
  | c :: _ => !(isWordChar c)

/-- Match of the regex `_(20\d{2})_trim(\d)\b` (IGNORECASE) anchored at the
head of the character list; returns (year, quarter). -/
def matchYearTrimAt : List Char → Option (Nat × Nat)
  | '_' :: y1 :: y2 :: y3 :: y4 :: '_' :: t1 :: t2 :: t3 :: t4 :: q :: rest =>
    if y1 == '2' && y2 == '0' && pyIsDigit y3 && pyIsDigit y4 &&
       Char.toLower t1 == 't' && Char.toLower t2 == 'r' &&
       Char.toLower t3 == 'i' && Char.toLower t4 == 'm' &&
       pyIsDigit q && boundaryOk rest then
      some (2000 + 10 * digitVal y3 + digitVal y4, digitVal q)
    else none
  | _ => none

/-- Model of `re.search` for the pattern: leftmost match wins. -/
def searchYearTrim : List Char → Option (Nat × Nat)
  | [] => none
  | c :: rest =>
    match matchYearTrimAt (c :: rest) with
    | some r => some r
    | none => searchYearTrim rest

/-- parquet.py `parse_year_trim_from_name`. -/
def parse_year_trim_from_name (fname : String) : Option (Nat × Nat) :=
  searchYearTrim fname.data

/-- parquet.py `find_col_ci`: index of the first column whose lower-cased
name equals the lower-cased target. -/
def find_col_ci (cols : List String) (target : String) : Option Nat :=
  cols.findIdx? (fun c => pyLower c == pyLower target)

def digitsOnly (s : String) : List Char := s.data.filter pyIsDigit

/-- Python `str.zfill(3)` on a digit-only string. -/
def zfill3 (l : List Char) : List Char :=
  if l.length < 3 then List.replicate (3 - l.length) '0' ++ l else l

/-- parquet.py `derive_year_trim_from_per`, per row: keep the digits of the
PER cell, left-pad to 3, first digit = quarter, next two = year − 2000. -/
def derivePerRow (r : List Cell) (j : Nat) : Option Nat × Option Nat :=
  let s := cellToStr (r.getD j Cell.na)
  let z := zfill3 (digitsOnly s)
  (some (2000 + (10 * digitVal (z.getD 1 '0') + digitVal (z.getD 2 '0'))),
   some (digitVal (z.getD 0 '0')))

def metaNames : List String := ["anio", "trimestre", "anio_trimestre"]

/-- The `anio_trimestre` label: string(anio) + "T" + string(trimestre), NA if either
side is NA (pandas string concatenation propagates NA). -/
def labelCell : Cell → Cell → Cell
  | Cell.int a, Cell.int q => Cell.str ⟨intDigits a ++ 'T' :: intDigits q⟩
  | _, _ => Cell.na

def optCellInt : Option Nat → Cell
  | some n => Cell.int n
  | none => Cell.na

/-- parquet.py `add_meta_cols`: insert `anio`, `trimestre`, `anio_trimestre`
in front; filename-derived values are used uniformly for every row when
present, otherwise the values are derived per record from the PER column
(or NA when there is no PER column). -/
def add_meta_cols (t : Table) (yt : Option (Nat × Nat)) : Table :=
  match yt with
  | some (y, q) =>
    { cols := metaNames ++ t.cols,
      rows := t.rows.map (fun r =>
        Cell.int y :: Cell.int q :: labelCell (Cell.int y) (Cell.int q) :: r) }
  | none =>
    match find_col_ci t.cols "per" with
    | some j =>
      { cols := metaNames ++ t.cols,
        rows := t.rows.map (fun r =>
          let d := derivePerRow r j
          optCellInt d.1 :: optCellInt d.2 ::
            labelCell (optCellInt d.1) (optCellInt d.2) :: r) }
    | none =>
      { cols := metaNames ++ t.cols,
        rows := t.rows.map (fun r => Cell.na :: Cell.na :: Cell.na :: r) }

/-! ### parquet.py — sniffing and header detection

A `FileModel` is one input file, with the outcomes of the pandas calls the
script can make on it recorded as functions of the encoding/delimiter that
the call receives (`none`/`otherErr` = the call raised).  Decoding with
`errors="replace"` never raises, so the decode step is total; the
`csv.Sniffer` heuristic is abstracted as `sniffDelim`. -/

inductive PyParse where
  | ok (t : Table) : PyParse
  | unicodeErr : PyParse
  | otherErr : PyParse

structure FileModel where
  fname : String
  headBytes : List Nat
  sniffDelim : String → String
  parseSample : String → String → Option (List String)
  parseFile : String → String → Option (List String)
  loadC : String → String → Option Table
  loadPy : String → String → PyParse
  loadLossy : String → Option Table

/-- parquet.py `sniff_encoding`: BOM signatures, then the null-byte
heuristic over the first 2000 bytes. -/
def sniff_encoding (head : List Nat) : Option String :=
  if head.take 3 = [0xEF, 0xBB, 0xBF] then some "utf-8-sig"
  else if head.take 4 = [0xFF, 0xFE, 0x00, 0x00] then some "utf-32le"
  else if head.take 4 = [0x00, 0x00, 0xFE, 0xFF] then some "utf-32be"
  else if head.take 2 = [0xFF, 0xFE] then some "utf-16le"
  else if head.take 2 = [0xFE, 0xFF] then some "utf-16be"
  else if 50 < (head.take 2000).count 0 then some "utf-16"
  else none

def fallbackEncs : List String :=
  ["utf-8", "utf-8-sig", "cp1252", "latin-1", "utf-16", "utf-16le", "utf-16be"]

/-- The candidate encoding list of `headers_only`: detected first, then the
fixed fallback sequence. -/
def encodingsTry (f : FileModel) : List String :=
  (match sniff_encoding f.headBytes with
   | some e => [e]
   | none => []) ++ fallbackEncs

/-- Keep a parse outcome only if it produced more than zero columns. -/
def posCols : Option (List String) → Option (List String)
  | some cs => if 0 < cs.length then some cs else none
  | none => none

/-- One iteration of the first loop of `headers_only`: sniff the delimiter
on the decoded sample, try the StringIO parse, then the direct file parse;
accept the first outcome with more than zero columns. -/
def tryEncoding (f : FileModel) (enc : String) :
    Option (List String × String × String) :=
  match posCols (f.parseSample enc (f.sniffDelim enc)) with
  | some cs => some (cs, enc, f.sniffDelim enc)
  | none =>
    match posCols (f.parseFile enc (f.sniffDelim enc)) with
    | some cs => some (cs, enc, f.sniffDelim enc)
    | none => none

def delimCandidates : List String := [",", ";", "|", "\t"]

/-- One iteration of the final fallback grid of `headers_only`: all four
fixed delimiters against the file. -/
def tryGrid (f : FileModel) (enc : String) :
    Option (List String × String × String) :=
  delimCandidates.findSome? (fun d =>
    match posCols (f.parseFile enc d) with
    | some cs => some (cs, enc, d)
    | none => none)

/-- parquet.py `headers_only`; `none` models the final raised
`UnicodeDecodeError` after all candidates fail. -/
def headers_only (f : FileModel) : Option (List String × String × String) :=
  match (encodingsTry f).findSome? (tryEncoding f) with
  | some r => some r
  | none => (encodingsTry f).findSome? (tryGrid f)

/-! ### parquet.py — robust full loader -/

def altEncs : List String :=
  ["utf-8-sig", "utf-16", "utf-16le", "utf-16be", "cp1252", "latin-1"]

def pyOk : PyParse → Option Table
  | PyParse.ok t => some t
  | _ => none

/-- parquet.py `read_full_csv_robust`: (1) strict C-engine parse; (2)
python-engine parse under the same encoding; (3) on a UnicodeDecodeError
only, python-engine parse across the alternate encodings; (4) lossy
latin-1 decode and parse.  A `none` result models the stage-4 exception
propagating out of the function (there is no handler around stage 4). -/
def read_full_csv_robust (f : FileModel) (enc delim : String) : Option Table :=
  match f.loadC enc delim with
  | some t => some t
  | none =>
    match f.loadPy enc delim with
    | PyParse.ok t => some t
    | PyParse.unicodeErr =>
      match altEncs.findSome? (fun e2 => pyOk (f.loadPy e2 delim)) with
      | some t => some t
      | none => f.loadLossy delim
    | PyParse.otherErr => f.loadLossy delim

/-! ### parquet.py — pass 1 -/

structure FileInfo where
  file : FileModel
  mod : String
  yt : Option (Nat × Nat)
  encoding : String
  delimiter : String
  cols : List String

structure Pass1Out where
  info : List FileInfo
  fatals : Nat

/-- One iteration of the `pass1` loop: skip unclassifiable files; on header
success append a descriptor; on header failure log the error (counted here)
and continue with the next file. -/
def pass1Step (acc : Pass1Out) (f : FileModel) : Pass1Out :=
  match detect_module_from_filename f.fname with
  | none => acc
  | some m =>
    match headers_only f with
    | some (cs, enc, delim) =>
      { acc with info := acc.info ++
          [⟨f, m, parse_year_trim_from_name f.fname, enc, delim, cs⟩] }
    | none => { acc with fatals := acc.fatals + 1 }

/-- parquet.py `pass1`. -/
def pass1 (files : List FileModel) : Pass1Out :=
  files.foldl pass1Step ⟨[], 0⟩

/-- Python set insertion, fixing first-insertion order (set iteration order
is unspecified in Python; every property proved below is independent of
this choice). -/
def setInsert (acc : List String) (c : String) : List String :=
  if c ∈ acc then acc else acc ++ [c]

def setInsertMany (acc : List String) (cs : List String) : List String :=
  cs.foldl setInsert acc

/-- The set `module_to_union[mod]`: union of the header columns of the module's
successfully scanned files, in file order. -/
def unionForModule (p : Pass1Out) (m : String) : List String :=
  (p.info.filter (fun fi => fi.mod == m)).foldl
    (fun acc fi => setInsertMany acc fi.cols) []

/-! ### parquet.py — final schema -/

/-- Code-point lexicographic `≤` on character lists (Python string
comparison). -/
def lexLe : List Char → List Char → Bool
  | [], _ => true
  | _ :: _, [] => false
  | a :: x, b :: y =>
    if a.toNat < b.toNat then true
    else if b.toNat < a.toNat then false
    else lexLe x y

/-- The comparison of `sorted(union, key=str.lower)`. -/
def lowerLe (a b : String) : Bool := lexLe (pyLower a).data (pyLower b).data

/-- build_with_dask: `final_cols` = fixed metadata columns, then the union
sorted by lower-cased name, minus exact matches of the metadata names. -/
def final_cols (union : List String) : List String :=
  metaNames ++ (sortLe lowerLe union).filter (fun c => !(metaNames.contains c))

/-! ### parquet.py — load_one and the streaming writer -/

/-- Inside `load_one`: add any canonical column the file lacks, as NA. -/
def addMissing (final : List String) (t : Table) : Table :=
  let missing := final.filter (fun c => !(t.cols.contains c))
  { cols := t.cols ++ missing,
    rows := t.rows.map (fun r => r ++ List.replicate missing.length Cell.na) }

/-- Model of `df.reindex(columns=final)` and `pdf[cols_writer]`: select the canonical
columns in order, NA where absent. -/
def reindexTo (final : List String) (t : Table) : Table :=
  { cols := final,
    rows := t.rows.map (fun r =>
      final.map (fun c =>
        match t.cols.indexOf? c with
        | some j => r.getD j Cell.na
        | none => Cell.na)) }

/-- Model of `pd.to_numeric(errors="coerce")` restricted to the integer values this
pipeline produces. -/
def toNumericCell : Cell → Cell
  | Cell.na => Cell.na
  | Cell.int n => Cell.int n
  | Cell.str v => if isIntString v then Cell.int (strToInt v) else Cell.na

/-- Model of `astype(string_dtype)` on an all-string column. -/
def stringifyCell : Cell → Cell
  | Cell.na => Cell.na
  | Cell.str v => Cell.str v
  | Cell.int n => Cell.str (intStr n)

def cellAt (cols : List String) (r : List Cell) (name : String) : Cell :=
  match cols.indexOf? name with
  | some j => r.getD j Cell.na
  | none => Cell.na

/-- The final casts of `load_one`: `anio`/`trimestre` to Int64,
`anio_trimestre` recomputed from them, every other column to string. -/
def castMetaRow (cols : List String) (r : List Cell) : List Cell :=
  let a := toNumericCell (cellAt cols r "anio")
  let q := toNumericCell (cellAt cols r "trimestre")
  (cols.zip r).map (fun cv =>
    if cv.1 = "anio" then a
    else if cv.1 = "trimestre" then q
    else if cv.1 = "anio_trimestre" then labelCell a q
    else stringifyCell cv.2)

def castMeta (t : Table) : Table :=
  { cols := t.cols, rows := t.rows.map (castMetaRow t.cols) }

/-- build_with_dask `load_one`: robust full parse, metadata insertion,
schema padding and reordering, final casts.  `none` = the exception of a
failed parse propagating out of the delayed task. -/
def load_one (f : FileModel) (enc delim : String) (yt : Option (Nat × Nat))
    (final : List String) : Option Table :=
  (read_full_csv_robust f enc delim).map (fun df =>
    castMeta (reindexTo final (addMissing final (add_meta_cols df yt))))

/-- parquet.py `write_single_parquet_from_ddf`: the first partition fixes
the schema; each later partition is appended, re-aligned to the writer
schema when its own differs.  `none` models the `RuntimeError` on an empty
partition list. -/
def write_single_parquet (parts : List Table) : Option Table :=
  match parts with
  | [] => none
  | p0 :: rest =>
    some { cols := p0.cols,
           rows := p0.rows ++ (rest.map (fun t =>
             if t.cols = p0.cols then t.rows
             else (reindexTo p0.cols t).rows)).flatten }

/-- Sequence a list of fallible results; `none` if any element is `none`
(the dask `compute` of a failing delayed task raises). -/
def seqOption : List (Option α) → Option (List α)
  | [] => some []
  | none :: _ => none
  | some a :: rest =>
    match seqOption rest with
    | some l => some (a :: l)
    | none => none

/-- build_with_dask, one module: load every file of the module and stream
the partitions into a single output table.  Any load failure aborts the
module's write (the exception propagates through `compute`). -/
def build_module (files : List FileInfo) (final : List String) : Option Table :=
  match seqOption (files.map (fun fi =>
      load_one fi.file fi.encoding fi.delimiter fi.yt final)) with
  | some ts => write_single_parquet ts
  | none => none

/-- End-to-end for one module: pass 1 over all files, then pass 2 for the
module's files against the module's canonical schema. -/
def pipeline_module (files : List FileModel) (m : String) : Option Table :=
  build_module ((pass1 files).info.filter (fun fi => fi.mod == m))
    (final_cols (unionForModule (pass1 files) m))

/-! ### apply_enoe_labels.py — dictionary consolidation

A dictionary record is the normalised form that `load_all_json_dicts`
produces: `tabla`, `variable` (field `varname` here) and the list of
`(valor, categoria)` category pairs, all as strings. -/

structure DictRow where
  tabla : String
  varname : String
  categorias : List (String × String)

/-- The canonicalisation chain of `parse_tabla_base` on the matched prefix. -/
def canonBase (pre : String) : String :=
  if pre = "COE1" ∨ pre = "COE1T" then "COE1T"
  else if pre = "COE2" ∨ pre = "COE2T" then "COE2T"
  else if pre = "SDEM" ∨ pre = "SDEMT" then "SDEMT"
  else if pre = "HOG" ∨ pre = "HOGT" then "HOGT"
  else if pre = "VIV" ∨ pre = "VIVT" then "VIVT"
  else pre

/-- The regex class `[A-Z0-9]`. -/
def isAZ09 (c : Char) : Bool :=
  decide (65 ≤ c.toNat ∧ c.toNat ≤ 90) || pyIsDigit c

/-- apply_enoe_labels.py `parse_tabla_base`: on a fullmatch of
`^([A-Z0-9]+?)(\d)(\d{2})$` (the last three characters are digits because
the pattern is anchored), return the canonical base and the (quarter,
two-digit year); otherwise strip every character outside `[A-Z0-9]` and
return rank components 0, 0. -/
def parse_tabla_base (tabla : String) : String × Nat × Nat :=
  let s := pyUpper (pyStrip tabla)
  let d := s.data
  let n := d.length
  if 4 ≤ n ∧ (d.take (n - 3)).all isAZ09 ∧ (d.drop (n - 3)).all pyIsDigit then
    match d.drop (n - 3) with
    | [t, a, b] =>
      (canonBase ⟨d.take (n - 3)⟩, digitVal t, 10 * digitVal a + digitVal b)
    | _ => (⟨d.filter isAZ09⟩, 0, 0)
  else (⟨d.filter isAZ09⟩, 0, 0)

/-- apply_enoe_labels.py `year_quarter_rank`. -/
def year_quarter_rank (tri yy : Nat) : Nat := (2000 + yy) * 10 + tri

/-- apply_enoe_labels.py `normalize_code_keys`: the stripped code itself;
its upper-cased variant when not numeric; when numeric, the unpadded
`str(int(s))` and, for `0 ≤ n < 100`, the two-digit zero-padded form.
Python collects these in a `set`, whose iteration order is unspecified; the
order fixed here is immaterial because every key of one call maps to the
same label. -/
def normalize_code_keys (code : String) : List String :=
  if pyStrip code = "" then []
  else if isIntString (pyStrip code) then
    setInsertMany [] ([pyStrip code, intStr (strToInt (pyStrip code))] ++
      (if 0 ≤ strToInt (pyStrip code) ∧ strToInt (pyStrip code) < 100
       then [pad2 (strToInt (pyStrip code)).toNat] else []))
  else setInsertMany [] [pyStrip code, pyUpper (pyStrip code)]

/-- The per-record dict built by `build_base_var_mappings` over one
`categorias` list, as its chronological assignment events: empty or
whitespace-only codes and labels are skipped; every normalised key variant
of a kept code is assigned the stripped label.  Parameterised by the
key-variant function to state determinism over the unspecified set order. -/
def localEventsWith (keyf : String → List String)
    (cats : List (String × String)) : List (String × String) :=
  cats.foldl (fun acc c =>
    if pyStrip c.1 = "" ∨ pyStrip c.2 = "" then acc
    else acc ++ (keyf (pyStrip c.1)).map (fun k => (k, pyStrip c.2))) []

def localEvents : List (String × String) → List (String × String) :=
  localEventsWith normalize_code_keys

/-- The `grouped[(base, variable)]` list for one key, in row order: release
rank paired with the row's local mapping events. -/
def groupForWith (keyf : String → List String) (rows : List DictRow)
    (b v : String) : List (Nat × List (String × String)) :=
  rows.filterMap (fun r =>
    let pb := parse_tabla_base (if r.tabla = "" then "BASE" else r.tabla)
    if pb.1 = b ∧ r.varname = v then
      some (year_quarter_rank pb.2.1 pb.2.2, localEventsWith keyf r.categorias)
    else none)

def groupFor (rows : List DictRow) (b v : String) :
    List (Nat × List (String × String)) :=
  groupForWith normalize_code_keys rows b v

/-- Ascending release-rank order (Python `sorted(lst, key=rank)`). -/
def rankLe (a b : Nat × List (String × String)) : Bool := decide (a.1 ≤ b.1)

/-- apply_enoe_labels.py `build_base_var_mappings` for one
`(base, variable)` group: sort the group by rank ascending (stably) and
apply the local mappings in order, later assignments overwriting earlier
ones — i.e. concatenate the event lists in sorted order. -/
def consolidatedWith (keyf : String → List String) (rows : List DictRow)
    (b v : String) : List (String × String) :=
  ((sortLe rankLe (groupForWith keyf rows b v)).map (fun e => e.2)).flatten

/-- The consolidated mapping for `(base, variable)`. -/
def consolidated (rows : List DictRow) (b v : String) :
    List (String × String) :=
  consolidatedWith normalize_code_keys rows b v

/-! ### apply_enoe_labels.py — lookup UDF -/

/-- Model of `_make_lookup_udf.norm_variants`: the stripped raw value, then the
numeric or upper-case variants, duplicates removed preserving order
(`None` gives no variants). -/
def norm_variants (v : Option String) : List String :=
  match v with
  | none => []
  | some raw =>
    if isIntString (pyStrip raw) then
      setInsertMany [] ([pyStrip raw, intStr (strToInt (pyStrip raw))] ++
        (if 0 ≤ strToInt (pyStrip raw) ∧ strToInt (pyStrip raw) < 100
         then [pad2 (strToInt (pyStrip raw)).toNat] else []))
    else setInsertMany [] [pyStrip raw, pyUpper (pyStrip raw)]

/-- Model of `_make_lookup_udf.fn`: return the mapping value of the first normalised
variant present in the mapping, else null. -/
def lookup_udf (m : List (String × String)) (v : Option String) :
    Option String :=
  (norm_variants v).findSome? (fun k => alookup m k)

/-! ### label_ent_mun.py — geographic catalog and labeling -/

def expectedCatCols : List String := ["CVE_ENT", "NOM_ENT", "CVE_MUN", "NOM_MUN"]

/-- Python `str.zfill(2)` on a digit-only string. -/
def zfill2 (l : List Char) : List Char :=
  if l.length < 2 then List.replicate (2 - l.length) '0' ++ l else l

/-- Key normalisation of `read_catalog`/`label_one_parquet` for entity
codes: keep digits, pad to two. -/
def entKey (c : Cell) : String := ⟨zfill2 (digitsOnly (cellToStr c))⟩

/-- Key normalisation for municipality codes: keep digits, pad to three. -/
def munKey (c : Cell) : String := ⟨zfill3 (digitsOnly (cellToStr c))⟩

/-- Model of `drop_duplicates` keeping the first occurrence of each key. -/
def dedupByKey (l : List (String × Cell)) : List (String × Cell) :=
  l.foldl (fun acc p =>
    if acc.any (fun q => q.1 == p.1) then acc else acc ++ [p]) []

def dedupByKey2 (l : List ((String × String) × Cell)) :
    List ((String × String) × Cell) :=
  l.foldl (fun acc p =>
    if acc.any (fun q => q.1 == p.1) then acc else acc ++ [p]) []

/-- The `ent_df` side of the catalog: normalised CVE_ENT → NOM_ENT. -/
def entPairs (df : Table) : List (String × Cell) :=
  dedupByKey (df.rows.map (fun r =>
    (entKey (cellAt df.cols r "CVE_ENT"), cellAt df.cols r "NOM_ENT")))

/-- The `muni_df` side: normalised (CVE_ENT, CVE_MUN) → NOM_MUN. -/
def munPairs (df : Table) : List ((String × String) × Cell) :=
  dedupByKey2 (df.rows.map (fun r =>
    ((entKey (cellAt df.cols r "CVE_ENT"), munKey (cellAt df.cols r "CVE_MUN")),
     cellAt df.cols r "NOM_MUN")))

/-- label_ent_mun.py `read_catalog` applied to the already-parsed catalog
table (the CSV decoding loop is upstream of the schema check): if any of
the four expected geographic columns is absent, raise — `none`; otherwise
build the deduplicated entity and municipality lookup tables. -/
def read_catalog (df : Table) :
    Option (List (String × Cell) × List ((String × String) × Cell)) :=
  if expectedCatCols.all (fun c => df.cols.contains c) then
    some (entPairs df, munPairs df)
  else none

def lookupEnt (ent : List (String × Cell)) (k : String) : Cell :=
  match ent.find? (fun p => p.1 == k) with
  | some p => p.2
  | none => Cell.na

def lookupMun (mun : List ((String × String) × Cell)) (k : String × String) :
    Cell :=
  match mun.find? (fun p => p.1 == k) with
  | some p => p.2
  | none => Cell.na

/-- label_ent_mun.py `label_one_parquet`, net effect of the two left merges
(the helper `_ent_code`/`_mun_code` columns and the catalog key columns are
dropped again, and `DROP_ORIGINAL_CODES` is False): append `ent_nombre`
when the table has an ENT column, and `mun_nombre` when it has a MUN
column, by lookup on the normalised code keys. -/
def label_one_parquet (ent : List (String × Cell))
    (mun : List ((String × String) × Cell)) (t : Table) : Table :=
  let entIdx := find_col_ci t.cols "ent"
  let munIdx := find_col_ci t.cols "mun"
  let entCodeOf : List Cell → String := fun r =>
    match entIdx with
    | some j => entKey (r.getD j Cell.na)
    | none => ""
  let t1 :=
    match entIdx with
    | some _ =>
      { cols := t.cols ++ ["ent_nombre"],
        rows := t.rows.map (fun r => r ++ [lookupEnt ent (entCodeOf r)]) }
    | none => t
  match munIdx with
  | some j =>
    { cols := t1.cols ++ ["mun_nombre"],
      rows := t1.rows.map (fun r =>
        r ++ [lookupMun mun (entCodeOf r, munKey (r.getD j Cell.na))]) }
  | none => t1

/-- The `__main__` block of label_ent_mun.py: the catalog is read (and its
schema checked) once, before any table is labeled; a failure there aborts
the stage with no output at all. -/
def run_label_ent_mun (catalog : Table) (parquets : List Table) :
    Option (List Table) :=
  match read_catalog catalog with
  | some em => some (parquets.map (label_one_parquet em.1 em.2))
  | none => none

/-! ### Supporting lemmas: set insertion and unions -/

theorem mem_setInsert (acc : List String) (c x : String) :
    x ∈ setInsert acc c ↔ x ∈ acc ∨ x = c := by
  unfold setInsert
  by_cases h : c ∈ acc
  · simp only [h, if_true]
    constructor
    · exact Or.inl
    · rintro (hx | rfl)
      · exact hx
      · exact h
  · simp [h]

theorem mem_setInsertMany (cs : List String) :
    ∀ acc x, x ∈ setInsertMany acc cs ↔ x ∈ acc ∨ x ∈ cs := by
  induction cs with
  | nil => simp [setInsertMany]
  | cons c rest ih =>
    intro acc x
    show x ∈ setInsertMany (setInsert acc c) rest ↔ _
    rw [ih, mem_setInsert]
    simp only [List.mem_cons]
    tauto

theorem nodup_setInsert (acc : List String) (c : String) (h : acc.Nodup) :
    (setInsert acc c).Nodup := by
  unfold setInsert
  by_cases hc : c ∈ acc
  · simpa [hc]
  · simp only [hc, if_false]
    rw [List.nodup_append]
    exact ⟨h, List.nodup_singleton c, by simpa using hc⟩

theorem nodup_setInsertMany (cs : List String) :
    ∀ acc, acc.Nodup → (setInsertMany acc cs).Nodup := by
  induction cs with
  | nil => intro acc h; exact h
  | cons c rest ih =>
    intro acc h
    exact ih (setInsert acc c) (nodup_setInsert acc c h)

theorem mem_union_fold (l : List FileInfo) :
    ∀ acc x, x ∈ l.foldl (fun a fi => setInsertMany a fi.cols) acc ↔
      x ∈ acc ∨ ∃ fi ∈ l, x ∈ fi.cols := by
  induction l with
  | nil => simp
  | cons fi rest ih =>
    intro acc x
    show x ∈ rest.foldl _ (setInsertMany acc fi.cols) ↔ _
    rw [ih, mem_setInsertMany]
    simp only [List.mem_cons]
    constructor
    · rintro ((hx | hx) | ⟨g, hg, hgx⟩)
      · exact Or.inl hx
      · exact Or.inr ⟨fi, Or.inl rfl, hx⟩
      · exact Or.inr ⟨g, Or.inr hg, hgx⟩
    · rintro (hx | ⟨g, (rfl | hg), hgx⟩)
      · exact Or.inl (Or.inl hx)
      · exact Or.inl (Or.inr hgx)
      · exact Or.inr ⟨g, hg, hgx⟩

theorem nodup_union_fold (l : List FileInfo) :
    ∀ acc, acc.Nodup →
      (l.foldl (fun a fi => setInsertMany a fi.cols) acc).Nodup := by
  induction l with
  | nil => intro acc h; exact h
  | cons fi rest ih =>
    intro acc h
    exact ih _ (nodup_setInsertMany fi.cols acc h)

theorem mem_unionForModule (p : Pass1Out) (m : String) (x : String) :
    x ∈ unionForModule p m ↔
      ∃ fi ∈ p.info, fi.mod = m ∧ x ∈ fi.cols := by
  unfold unionForModule
  rw [mem_union_fold]
  simp only [List.mem_filter, List.not_mem_nil, false_or, beq_iff_eq]
  constructor
  · rintro ⟨fi, ⟨hfi, hm⟩, hx⟩
    exact ⟨fi, hfi, hm, hx⟩
  · rintro ⟨fi, hfi, hm, hx⟩
    exact ⟨fi, ⟨hfi, hm⟩, hx⟩

theorem nodup_unionForModule (p : Pass1Out) (m : String) :
    (unionForModule p m).Nodup :=
  nodup_union_fold _ [] List.nodup_nil

/-! ### Supporting lemmas: the lexicographic comparison -/

theorem lexLe_total : ∀ x y : List Char, lexLe x y = true ∨ lexLe y x = true
  | [], y => Or.inl rfl
  | a :: x, [] => Or.inr rfl
  | a :: x, b :: y => by
    unfold lexLe
    by_cases h1 : a.toNat < b.toNat
    · left; simp [h1]
    · by_cases h2 : b.toNat < a.toNat
      · right; simp [h1, h2]
      · have := lexLe_total x y
        simpa [h1, h2] using this

theorem lexLe_trans : ∀ x y z : List Char,
    lexLe x y = true → lexLe y z = true → lexLe x z = true
  | [], _, _ => by intro _ _; rfl
  | a :: x, [], z => by intro h _; simp [lexLe] at h
  | a :: x, b :: y, [] => by intro _ h; simp [lexLe] at h
  | a :: x, b :: y, c :: z => by
    intro h1 h2
    unfold lexLe at h1 h2 ⊢
    by_cases hab : a.toNat < b.toNat
    · by_cases hbc : b.toNat < c.toNat
      · simp [show a.toNat < c.toNat by omega]
      · by_cases hcb : c.toNat < b.toNat
        · simp [hab, hbc, hcb] at h2
        · simp [show a.toNat < c.toNat by omega]
    · by_cases hba : b.toNat < a.toNat
      · simp [hab, hba] at h1
      · have hab' : a.toNat = b.toNat := by omega
        by_cases hbc : b.toNat < c.toNat
        · simp [show a.toNat < c.toNat by omega]
        · by_cases hcb : c.toNat < b.toNat
          · simp [hbc, hcb] at h2
          · have hbc' : b.toNat = c.toNat := by omega
            simp only [hab, hba, if_false] at h1
            simp only [hbc, hcb, if_false] at h2
            simp only [show ¬ a.toNat < c.toNat by omega,
              show ¬ c.toNat < a.toNat by omega, if_false]
            exact lexLe_trans x y z h1 h2

theorem lowerLe_total (a b : String) :
    lowerLe a b = true ∨ lowerLe b a = true :=
  lexLe_total _ _

theorem lowerLe_trans (a b c : String)
    (h1 : lowerLe a b = true) (h2 : lowerLe b c = true) :
    lowerLe a c = true :=
  lexLe_trans _ _ _ h1 h2

/-! ### Supporting lemmas: the canonical schema -/

theorem contains_true_iff (l : List String) (c : String) :
    l.contains c = true ↔ c ∈ l := by
  simp

theorem not_contains_iff (l : List String) (c : String) :
    (!(l.contains c)) = true ↔ c ∉ l := by
  rw [Bool.not_eq_true', ← Bool.not_eq_true, contains_true_iff]

theorem mem_final_cols (union : List String) (c : String) :
    c ∈ final_cols union ↔
      c ∈ metaNames ∨ (c ∈ union ∧ c ∉ metaNames) := by
  unfold final_cols
  rw [List.mem_append, List.mem_filter, mem_sortLe]
  constructor
  · rintro (h | ⟨hu, hf⟩)
    · exact Or.inl h
    · exact Or.inr ⟨hu, (not_contains_iff _ _).mp hf⟩
  · rintro (h | ⟨hu, hm⟩)
    · exact Or.inl h
    · exact Or.inr ⟨hu, (not_contains_iff _ _).mpr hm⟩

theorem observed_mem_final_cols (union : List String) (c : String)
    (h : c ∈ union) : c ∈ final_cols union := by
  rw [mem_final_cols]
  by_cases hm : c ∈ metaNames
  · exact Or.inl hm
  · exact Or.inr ⟨h, hm⟩

theorem final_cols_tail_sorted (union : List String) :
    ((sortLe lowerLe union).filter
        (fun c => !(metaNames.contains c))).Pairwise
      (fun a b => lowerLe a b = true) :=
  List.Pairwise.sublist (List.filter_sublist _)
    (sortLe_pairwise lowerLe lowerLe_total lowerLe_trans union)

theorem final_cols_nodup (union : List String) (h : union.Nodup) :
    (final_cols union).Nodup := by
  unfold final_cols
  rw [List.nodup_append]
  refine ⟨by decide, ?_, ?_⟩
  · exact List.Nodup.filter _ ((sortLe_perm lowerLe union).symm.nodup h)
  · intro c hc hcf
    rw [List.mem_filter] at hcf
    exact (not_contains_iff _ _).mp hcf.2 hc

/-! ### Supporting lemmas: pass 1 -/

theorem pass1_fold_split (ys : List FileModel) :
    ∀ acc : Pass1Out,
      (ys.foldl pass1Step acc).info =
        acc.info ++ (ys.foldl pass1Step ⟨[], 0⟩).info ∧
      (ys.foldl pass1Step acc).fatals =
        acc.fatals + (ys.foldl pass1Step ⟨[], 0⟩).fatals := by
  induction ys with
  | nil => intro acc; simp
  | cons y rest ih =>
    intro acc
    simp only [List.foldl_cons]
    have hstep : ∀ a : Pass1Out,
        (pass1Step a y).info = a.info ++ (pass1Step ⟨[], 0⟩ y).info ∧
        (pass1Step a y).fatals = a.fatals + (pass1Step ⟨[], 0⟩ y).fatals := by
      intro a
      unfold pass1Step
      cases detect_module_from_filename y.fname with
      | none => simp
      | some m =>
        cases headers_only y with
        | none => simp
        | some r => simp
    rw [(ih (pass1Step acc y)).1, (ih (pass1Step ⟨[], 0⟩ y)).1,
        (hstep acc).1, (hstep ⟨[], 0⟩).1]
    refine ⟨by simp, ?_⟩
    rw [(ih (pass1Step acc y)).2, (ih (pass1Step ⟨[], 0⟩ y)).2,
        (hstep acc).2, (hstep ⟨[], 0⟩).2]
    simp
    omega

theorem pass1_info_mem (files : List FileModel) :
    ∀ fi ∈ (pass1 files).info,
      detect_module_from_filename fi.file.fname = some fi.mod ∧
      headers_only fi.file = some (fi.cols, fi.encoding, fi.delimiter) ∧
      fi.yt = parse_year_trim_from_name fi.file.fname := by
  have haux : ∀ (fs : List FileModel) (acc : Pass1Out),
      (∀ fi ∈ acc.info,
        detect_module_from_filename fi.file.fname = some fi.mod ∧
        headers_only fi.file = some (fi.cols, fi.encoding, fi.delimiter) ∧
        fi.yt = parse_year_trim_from_name fi.file.fname) →
      ∀ fi ∈ (fs.foldl pass1Step acc).info,
        detect_module_from_filename fi.file.fname = some fi.mod ∧
        headers_only fi.file = some (fi.cols, fi.encoding, fi.delimiter) ∧
        fi.yt = parse_year_trim_from_name fi.file.fname := by
    intro fs
    induction fs with
    | nil => intro acc hacc; exact hacc
    | cons f rest ih =>
      intro acc hacc
      apply ih
      intro fi hfi
      unfold pass1Step at hfi
      cases hd : detect_module_from_filename f.fname with
      | none =>
        rw [hd] at hfi
        exact hacc fi hfi
      | some m =>
        rw [hd] at hfi
        cases hh : headers_only f with
        | none =>
          rw [hh] at hfi
          exact hacc fi hfi
        | some r =>
          rw [hh] at hfi
          simp only [List.mem_append, List.mem_singleton] at hfi
          rcases hfi with hfi | hfi
          · exact hacc fi hfi
          · subst hfi
            exact ⟨hd, hh, rfl⟩
  exact haux files ⟨[], 0⟩ (by simp)

/-- A header-scan accepted by `headers_only` reported more than zero
columns. -/
theorem headers_only_pos (f : FileModel) (cs : List String) (enc delim : String)
    (h : headers_only f = some (cs, enc, delim)) : 0 < cs.length := by
  have hpos : ∀ (o : Option (List String)) (cs' : List String),
      posCols o = some cs' → 0 < cs'.length := by
    intro o cs' ho
    unfold posCols at ho
    cases o with
    | none => simp at ho
    | some l =>
      by_cases hl : 0 < l.length
      · simp only [hl, if_true, Option.some.injEq] at ho
        rw [← ho]; exact hl
      · simp [hl] at ho
  have htryEnc : ∀ enc' r, tryEncoding f enc' = some r → 0 < r.1.length := by
    intro enc' r hr
    unfold tryEncoding at hr
    cases hs : posCols (f.parseSample enc' (f.sniffDelim enc')) with
    | some cs' =>
      rw [hs] at hr
      simp only [Option.some.injEq] at hr
      rw [← hr]
      exact hpos _ _ hs
    | none =>
      rw [hs] at hr
      cases hf2 : posCols (f.parseFile enc' (f.sniffDelim enc')) with
      | some cs' =>
        rw [hf2] at hr
        simp only [Option.some.injEq] at hr
        rw [← hr]
        exact hpos _ _ hf2
      | none => rw [hf2] at hr; simp at hr
  have htryGrid : ∀ enc' r, tryGrid f enc' = some r → 0 < r.1.length := by
    intro enc' r hr
    unfold tryGrid at hr
    obtain ⟨d, _, hd⟩ := List.exists_of_findSome?_eq_some hr
    cases hp : posCols (f.parseFile enc' d) with
    | some cs' =>
      rw [hp] at hd
      simp only [Option.some.injEq] at hd
      rw [← hd]
      exact hpos _ _ hp
    | none => rw [hp] at hd; simp at hd
  unfold headers_only at h
  cases h1 : (encodingsTry f).findSome? (tryEncoding f) with
  | some r =>
    rw [h1] at h
    simp only [Option.some.injEq] at h
    obtain ⟨e, _, he⟩ := List.exists_of_findSome?_eq_some h1
    have := htryEnc e r he
    rw [h] at this
    exact this
  | none =>
    rw [h1] at h
    obtain ⟨e, _, he⟩ := List.exists_of_findSome?_eq_some h
    exact htryGrid e _ he

/-! ### Supporting lemmas: loading and the streaming writer -/

theorem addMissing_rows_length (final : List String) (t : Table) :
    (addMissing final t).rows.length = t.rows.length := by
  unfold addMissing
  simp

theorem reindexTo_rows_length (final : List String) (t : Table) :
    (reindexTo final t).rows.length = t.rows.length := by
  unfold reindexTo
  simp

theorem castMeta_rows_length (t : Table) :
    (castMeta t).rows.length = t.rows.length := by
  unfold castMeta
  simp

theorem add_meta_cols_rows_length (t : Table) (yt : Option (Nat × Nat)) :
    (add_meta_cols t yt).rows.length = t.rows.length := by
  unfold add_meta_cols
  cases yt with
  | some p => cases p; simp
  | none => cases find_col_ci t.cols "per" <;> simp

theorem load_one_some (f : FileModel) (enc delim : String)
    (yt : Option (Nat × Nat)) (final : List String) (t : Table)
    (h : load_one f enc delim yt final = some t) :
    ∃ df, read_full_csv_robust f enc delim = some df ∧
      t.cols = final ∧ t.rows.length = df.rows.length := by
  unfold load_one at h
  cases hr : read_full_csv_robust f enc delim with
  | none => rw [hr] at h; simp at h
  | some df =>
    rw [hr] at h
    simp only [Option.map_some', Option.some.injEq] at h
    refine ⟨df, rfl, ?_, ?_⟩
    · rw [← h]; rfl
    · rw [← h]
      rw [castMeta_rows_length, reindexTo_rows_length, addMissing_rows_length,
          add_meta_cols_rows_length]

theorem seqOption_forall₂ {l : List (Option α)} {ts : List α}
    (h : seqOption l = some ts) :
    List.Forall₂ (fun o a => o = some a) l ts := by
  induction l generalizing ts with
  | nil =>
    unfold seqOption at h
    simp only [Option.some.injEq] at h
    rw [← h]
    exact List.Forall₂.nil
  | cons o rest ih =>
    cases o with
    | none => simp [seqOption] at h
    | some a =>
      unfold seqOption at h
      cases hr : seqOption rest with
      | none => rw [hr] at h; simp at h
      | some ts' =>
        rw [hr] at h
        simp only [Option.some.injEq] at h
        rw [← h]
        exact List.Forall₂.cons rfl (ih hr)

theorem seqOption_none_mem {l : List (Option α)} (h : none ∈ l) :
    seqOption l = none := by
  induction l with
  | nil => simp at h
  | cons o rest ih =>
    cases o with
    | none => rfl
    | some a =>
      rcases List.mem_cons.mp h with h1 | h1
      · exact absurd h1.symm (by simp)
      · unfold seqOption
        rw [ih h1]

theorem write_single_parquet_some (parts : List Table) (out : Table)
    (h : write_single_parquet parts = some out) :
    ∃ p0 rest, parts = p0 :: rest ∧ out.cols = p0.cols ∧
      out.rows.length = (parts.map (fun t => t.rows.length)).sum := by
  cases parts with
  | nil => simp [write_single_parquet] at h
  | cons p0 rest =>
    refine ⟨p0, rest, rfl, ?_, ?_⟩
    · unfold write_single_parquet at h
      simp only [Option.some.injEq] at h
      rw [← h]
    · unfold write_single_parquet at h
      simp only [Option.some.injEq] at h
      rw [← h]
      show (p0.rows ++ _).length = _
      rw [List.length_append, List.length_flatten, List.map_cons, List.sum_cons]
      congr 1
      rw [List.map_map]
      apply congrArg List.sum
      apply List.map_congr_left
      intro t ht
      by_cases hc : t.cols = p0.cols
      · simp [Function.comp, hc]
      · simp only [Function.comp, hc, if_false]
        show ((reindexTo p0.cols t).rows).length = t.rows.length
        unfold reindexTo
        simp

/-! ### Supporting lemmas: rank merge -/

theorem alookup_flat_eq_none_iff (segs : List (List (String × String)))
    (k : String) :
    alookup segs.flatten k = none ↔ ∀ m ∈ segs, alookup m k = none := by
  constructor
  · intro h m hm
    cases hv : alookup m k with
    | none => rfl
    | some v =>
      induction segs with
      | nil => simp at hm
      | cons s rest ih =>
        rw [List.flatten_cons, alookup_append] at h
        rcases List.mem_cons.mp hm with h1 | h1
        · subst h1
          cases hr : alookup rest.flatten k with
          | some w => rw [hr] at h; simp [Option.or] at h
          | none => rw [hr, hv] at h; simp [Option.or] at h
        · cases hr : alookup rest.flatten k with
          | some w => rw [hr] at h; simp [Option.or] at h
          | none => exact ih hr h1
  · exact alookup_flat_none

/-- The key merge property: over a rank-sorted list of (rank, events)
segments, if some segment at rank `r2` resolves `k` to `l2`, every segment
resolving `k` has rank at most `r2`, and all rank-`r2` segments resolving
`k` agree on `l2`, then the concatenated (merged) mapping resolves `k` to
`l2`. -/
theorem merged_lookup_top_rank
    (S : List (Nat × List (String × String))) (k l2 : String) (r2 : Nat)
    (hsorted : S.Pairwise (fun a b => a.1 ≤ b.1))
    (hhit : ∃ e ∈ S, e.1 = r2 ∧ alookup e.2 k = some l2)
    (htop : ∀ e ∈ S, ∀ x, alookup e.2 k = some x →
      e.1 ≤ r2 ∧ (r2 ≤ e.1 → x = l2)) :
    alookup ((S.map (fun e => e.2)).flatten) k = some l2 := by
  induction S with
  | nil => simp at hhit
  | cons e S' ih =>
    obtain ⟨hle, hsorted'⟩ := List.pairwise_cons.mp hsorted
    rw [List.map_cons, List.flatten_cons, alookup_append]
    obtain ⟨e0, he0, he0r, he0k⟩ := hhit
    cases hr : alookup (S'.map (fun e => e.2)).flatten k with
    | some x =>
      obtain ⟨m, hm, hmk⟩ := alookup_flat_some hr
      obtain ⟨e', he', he'2⟩ := List.mem_map.mp hm
      rcases List.mem_cons.mp he0 with h1 | h1
      · subst h1
        have hxl : x = l2 := by
          have hrank := (htop e' (List.mem_cons_of_mem _ he') x
            (by rw [he'2]; exact hmk)).2
          apply hrank
          rw [← he0r]
          exact hle e' he'
        rw [hxl]
        rfl
      · have hthis : alookup (S'.map (fun e => e.2)).flatten k = some l2 := by
          apply ih hsorted' ⟨e0, h1, he0r, he0k⟩
          intro e'' he'' x' hx'
          exact htop e'' (List.mem_cons_of_mem _ he'') x' hx'
        have hx2 : x = l2 := by
          have := hr.symm.trans hthis
          exact Option.some.inj this
        rw [hx2]
        rfl
    | none =>
      rcases List.mem_cons.mp he0 with h1 | h1
      · subst h1
        rw [he0k]
        rfl
      · exfalso
        have := (alookup_flat_eq_none_iff _ k).mp hr e0.2
          (List.mem_map_of_mem (fun e => e.2) h1)
        rw [this] at he0k
        exact Option.noConfusion he0k

/-! ### Supporting lemmas: normalised code keys -/

theorem string_eq_empty_of_data {s : String} (h : s.data = []) : s = "" := by
  cases s with
  | mk d =>
    simp only at h
    rw [h]

theorem pyUpper_ne_empty {s : String} (h : s ≠ "") : pyUpper s ≠ "" := by
  intro hu
  apply h
  have : (pyUpper s).data = [] := by rw [hu]
  unfold pyUpper at this
  simp only [List.map_eq_nil_iff] at this
  exact string_eq_empty_of_data this

theorem mem_normalize_ne_empty (c k : String)
    (h : k ∈ normalize_code_keys c) : k ≠ "" := by
  unfold normalize_code_keys at h
  by_cases hs : pyStrip c = ""
  · simp [hs] at h
  · rw [if_neg hs] at h
    by_cases hn : isIntString (pyStrip c)
    · rw [if_pos hn, mem_setInsertMany] at h
      simp only [List.not_mem_nil, false_or, List.mem_append, List.mem_cons,
        List.not_mem_nil, or_false] at h
      rcases h with ((h | h) | h)
      · rw [h]; exact hs
      · rw [h]; exact intStr_ne_empty _
      · by_cases hr : 0 ≤ strToInt (pyStrip c) ∧ strToInt (pyStrip c) < 100
        · rw [if_pos hr] at h
          simp only [List.mem_singleton] at h
          rw [h]
          exact pad2_ne_empty _
        · rw [if_neg hr] at h
          simp at h
    · rw [if_neg hn, mem_setInsertMany] at h
      simp only [List.not_mem_nil, false_or, List.mem_cons, List.not_mem_nil,
        or_false] at h
      rcases h with h | h
      · rw [h]; exact hs
      · rw [h]; exact pyUpper_ne_empty hs

/-- The key `"1"` is produced as a variant of a code exactly when the stripped
code is numeric with value 1. -/
theorem one_mem_normalize (c : String) :
    "1" ∈ normalize_code_keys c ↔
      (isIntString (pyStrip c) = true ∧ strToInt (pyStrip c) = 1) := by
  unfold normalize_code_keys
  by_cases hs : pyStrip c = ""
  · rw [if_pos hs]
    simp only [List.not_mem_nil, false_iff, not_and]
    intro hn
    rw [hs] at hn
    exact absurd hn (by decide)
  · rw [if_neg hs]
    by_cases hn : isIntString (pyStrip c)
    · rw [if_pos hn, mem_setInsertMany]
      simp only [List.not_mem_nil, false_or, List.mem_append, List.mem_cons,
        List.not_mem_nil, or_false]
      constructor
      · rintro ((h | h) | h)
        · refine ⟨hn, ?_⟩
          rw [← h]
          decide
        · exact ⟨hn, intStr_eq_one _ h.symm⟩
        · by_cases hr : 0 ≤ strToInt (pyStrip c) ∧ strToInt (pyStrip c) < 100
          · rw [if_pos hr] at h
            simp only [List.mem_singleton] at h
            exfalso
            have h100 : (strToInt (pyStrip c)).toNat < 100 := by omega
            exact pad2_ne_one _ h100 h.symm
          · rw [if_neg hr] at h
            simp at h
      · rintro ⟨-, h1⟩
        left; right
        rw [h1]
        decide
    · rw [if_neg hn, mem_setInsertMany]
      simp only [List.not_mem_nil, false_or, List.mem_cons, List.not_mem_nil,
        or_false]
      constructor
      · rintro (h | h)
        · exfalso
          apply hn
          rw [← h]
          decide
        · exfalso
          have hup : isIntString (pyUpper (pyStrip c)) = true := by
            rw [← h]
            decide
          have := pyUpper_fix_of_isIntString _ hup
          rw [this] at h
          apply hn
          rw [← h]
          decide
      · rintro ⟨h, -⟩
        exact absurd h hn

/-- The key `"01"` is produced as a variant of a code exactly when the stripped
code is numeric with value 1. -/
theorem padded_one_mem_normalize (c : String) :
    "01" ∈ normalize_code_keys c ↔
      (isIntString (pyStrip c) = true ∧ strToInt (pyStrip c) = 1) := by
  unfold normalize_code_keys
  by_cases hs : pyStrip c = ""
  · rw [if_pos hs]
    simp only [List.not_mem_nil, false_iff, not_and]
    intro hn
    rw [hs] at hn
    exact absurd hn (by decide)
  · rw [if_neg hs]
    by_cases hn : isIntString (pyStrip c)
    · rw [if_pos hn, mem_setInsertMany]
      simp only [List.not_mem_nil, false_or, List.mem_append, List.mem_cons,
        List.not_mem_nil, or_false]
      constructor
      · rintro ((h | h) | h)
        · refine ⟨hn, ?_⟩
          rw [← h]
          decide
        · exact absurd h.symm (intStr_ne_padded_one _)
        · by_cases hr : 0 ≤ strToInt (pyStrip c) ∧ strToInt (pyStrip c) < 100
          · rw [if_pos hr] at h
            simp only [List.mem_singleton] at h
            have h100 : (strToInt (pyStrip c)).toNat < 100 := by omega
            have := (pad2_eq_padded_one_iff _ h100).mp h.symm
            exact ⟨hn, by omega⟩
          · rw [if_neg hr] at h
            simp at h
      · rintro ⟨-, h1⟩
        right
        rw [if_pos (by rw [h1]; constructor <;> decide)]
        simp only [List.mem_singleton]
        rw [h1]
        decide
    · rw [if_neg hn, mem_setInsertMany]
      simp only [List.not_mem_nil, false_or, List.mem_cons, List.not_mem_nil,
        or_false]
      constructor
      · rintro (h | h)
        · exfalso
          apply hn
          rw [← h]
          decide
        · exfalso
          have hup : isIntString (pyUpper (pyStrip c)) = true := by
            rw [← h]
            decide
          have := pyUpper_fix_of_isIntString _ hup
          rw [this] at h
          apply hn
          rw [← h]
          decide
      · rintro ⟨h, -⟩
        exact absurd h hn

/-- Every insertion that writes the key `"1"` also writes `"01"`, and vice
versa. -/
theorem normalize_keys_one_pair (c : String) :
    "1" ∈ normalize_code_keys c ↔ "01" ∈ normalize_code_keys c := by
  rw [one_mem_normalize, padded_one_mem_normalize]

/-! ### Supporting lemmas: the 1/01 balance invariant -/

/-- A mapping resolves `"1"` and `"01"` identically. -/
def Bal (m : List (String × String)) : Prop :=
  alookup m "1" = alookup m "01"

theorem bal_nil : Bal [] := rfl

theorem bal_append {a b : List (String × String)} (ha : Bal a) (hb : Bal b) :
    Bal (a ++ b) := by
  unfold Bal at *
  rw [alookup_append, alookup_append, ha, hb]

theorem bal_seg (code label : String) :
    Bal ((normalize_code_keys code).map (fun k => (k, label))) := by
  unfold Bal
  rw [alookup_const_seg, alookup_const_seg]
  by_cases h : "1" ∈ normalize_code_keys code
  · rw [if_pos h, if_pos ((normalize_keys_one_pair code).mp h)]
  · rw [if_neg h, if_neg (fun hc => h ((normalize_keys_one_pair code).mpr hc))]

theorem bal_localEvents (cats : List (String × String)) :
    Bal (localEvents cats) := by
  unfold localEvents localEventsWith
  have haux : ∀ (cs : List (String × String)) acc, Bal acc →
      Bal (cs.foldl (fun acc c =>
        if pyStrip c.1 = "" ∨ pyStrip c.2 = "" then acc
        else acc ++ (normalize_code_keys (pyStrip c.1)).map
          (fun k => (k, pyStrip c.2))) acc) := by
    intro cs
    induction cs with
    | nil => intro acc h; exact h
    | cons c rest ih =>
      intro acc h
      simp only [List.foldl_cons]
      by_cases hc : pyStrip c.1 = "" ∨ pyStrip c.2 = ""
      · rw [if_pos hc]
        exact ih acc h
      · rw [if_neg hc]
        exact ih _ (bal_append h (bal_seg _ _))
  exact haux cats [] bal_nil

theorem bal_flatten {segs : List (List (String × String))}
    (h : ∀ m ∈ segs, Bal m) : Bal segs.flatten := by
  induction segs with
  | nil => exact bal_nil
  | cons s rest ih =>
    rw [List.flatten_cons]
    exact bal_append (h s (List.mem_cons_self _ _))
      (ih (fun m hm => h m (List.mem_cons_of_mem _ hm)))

theorem groupFor_snd_shape (keyf : String → List String) (rows : List DictRow)
    (b v : String) :
    ∀ e ∈ groupForWith keyf rows b v,
      ∃ cats, e.2 = localEventsWith keyf cats := by
  intro e he
  unfold groupForWith at he
  obtain ⟨r, _, hr⟩ := List.mem_filterMap.mp he
  by_cases hc : (parse_tabla_base (if r.tabla = "" then "BASE" else r.tabla)).1 = b ∧
      r.varname = v
  · rw [if_pos hc] at hr
    simp only [Option.some.injEq] at hr
    exact ⟨r.categorias, by rw [← hr]⟩
  · rw [if_neg hc] at hr
    exact absurd hr (by simp)

theorem bal_consolidated (rows : List DictRow) (b v : String) :
    Bal (consolidated rows b v) := by
  unfold consolidated consolidatedWith
  apply bal_flatten
  intro m hm
  obtain ⟨e, he, he2⟩ := List.mem_map.mp hm
  obtain ⟨cats, hcats⟩ := groupFor_snd_shape normalize_code_keys rows b v e
    ((mem_sortLe rankLe _ e).mp he)
  rw [← he2, hcats]
  exact bal_localEvents cats

/-! ### Supporting lemmas: absent keys -/

theorem alookup_no_key {m : List (String × String)} {k : String}
    (h : ∀ kv ∈ m, kv.1 ≠ k) : alookup m k = none := by
  induction m with
  | nil => rfl
  | cons kv rest ih =>
    rw [show kv = (kv.1, kv.2) from rfl, alookup_cons,
        ih (fun p hp => h p (List.mem_cons_of_mem _ hp))]
    rw [if_neg (fun he => h kv (List.mem_cons_self _ _) he.symm)]
    rfl

theorem mem_localEventsWith (keyf : String → List String)
    (cats : List (String × String)) :
    ∀ kv ∈ localEventsWith keyf cats, ∃ code, kv.1 ∈ keyf code := by
  unfold localEventsWith
  have haux : ∀ (cs : List (String × String)) acc,
      (∀ kv ∈ acc, ∃ code, kv.1 ∈ keyf code) →
      ∀ kv ∈ cs.foldl (fun acc c =>
        if pyStrip c.1 = "" ∨ pyStrip c.2 = "" then acc
        else acc ++ (keyf (pyStrip c.1)).map (fun k => (k, pyStrip c.2))) acc,
        ∃ code, kv.1 ∈ keyf code := by
    intro cs
    induction cs with
    | nil => intro acc h; exact h
    | cons c rest ih =>
      intro acc h
      simp only [List.foldl_cons]
      by_cases hc : pyStrip c.1 = "" ∨ pyStrip c.2 = ""
      · rw [if_pos hc]
        exact ih acc h
      · rw [if_neg hc]
        apply ih
        intro kv hkv
        rcases List.mem_append.mp hkv with hkv | hkv
        · exact h kv hkv
        · obtain ⟨key, hkey, hkeq⟩ := List.mem_map.mp hkv
          exact ⟨pyStrip c.1, by rw [← hkeq]; exact hkey⟩
  exact haux cats [] (by simp)

theorem consolidated_keys_ne_empty (rows : List DictRow) (b v : String) :
    ∀ kv ∈ consolidated rows b v, kv.1 ≠ "" := by
  intro kv hkv
  unfold consolidated consolidatedWith at hkv
  obtain ⟨m, hm, hkvm⟩ := List.mem_flatten.mp hkv
  obtain ⟨e, he, he2⟩ := List.mem_map.mp hm
  obtain ⟨cats, hcats⟩ := groupFor_snd_shape normalize_code_keys rows b v e
    ((mem_sortLe rankLe _ e).mp he)
  rw [← he2, hcats] at hkvm
  obtain ⟨code, hcode⟩ := mem_localEventsWith normalize_code_keys cats kv hkvm
  exact mem_normalize_ne_empty code kv.1 hcode

/-! ### Supporting lemmas: determinism over the unspecified set order -/

/-- Two grouped entries with the same rank and extensionally equal
mappings. -/
def RelEv (a b : Nat × List (String × String)) : Prop :=
  a.1 = b.1 ∧ ∀ k, alookup a.2 k = alookup b.2 k

theorem localEventsWith_alookup (keyf : String → List String)
    (hk : ∀ c, (keyf c).Perm (normalize_code_keys c))
    (cats : List (String × String)) (k : String) :
    alookup (localEventsWith keyf cats) k =
      alookup (localEvents cats) k := by
  unfold localEvents localEventsWith
  have haux : ∀ (cs : List (String × String)) acc₁ acc₂,
      (∀ k', alookup acc₁ k' = alookup acc₂ k') →
      ∀ k', alookup (cs.foldl (fun acc c =>
          if pyStrip c.1 = "" ∨ pyStrip c.2 = "" then acc
          else acc ++ (keyf (pyStrip c.1)).map (fun key => (key, pyStrip c.2)))
          acc₁) k' =
        alookup (cs.foldl (fun acc c =>
          if pyStrip c.1 = "" ∨ pyStrip c.2 = "" then acc
          else acc ++ (normalize_code_keys (pyStrip c.1)).map
            (fun key => (key, pyStrip c.2))) acc₂) k' := by
    intro cs
    induction cs with
    | nil => intro acc₁ acc₂ h k'; exact h k'
    | cons c rest ih =>
      intro acc₁ acc₂ h k'
      simp only [List.foldl_cons]
      by_cases hc : pyStrip c.1 = "" ∨ pyStrip c.2 = ""
      · rw [if_pos hc, if_pos hc]
        exact ih acc₁ acc₂ h k'
      · rw [if_neg hc, if_neg hc]
        apply ih
        intro k''
        rw [alookup_append, alookup_append, h k'', alookup_const_seg,
            alookup_const_seg]
        by_cases hmem : k'' ∈ keyf (pyStrip c.1)
        · rw [if_pos hmem, if_pos ((hk (pyStrip c.1)).mem_iff.mp hmem)]
        · rw [if_neg hmem,
              if_neg (fun hmem2 => hmem ((hk (pyStrip c.1)).mem_iff.mpr hmem2))]
  exact haux cats [] [] (fun k' => rfl) k

theorem groupFor_forall₂ (keyf : String → List String)
    (hk : ∀ c, (keyf c).Perm (normalize_code_keys c))
    (rows : List DictRow) (b v : String) :
    List.Forall₂ RelEv (groupForWith keyf rows b v) (groupFor rows b v) := by
  unfold groupFor groupForWith
  induction rows with
  | nil => exact List.Forall₂.nil
  | cons r rest ih =>
    simp only [List.filterMap_cons]
    by_cases hc : (parse_tabla_base (if r.tabla = "" then "BASE" else r.tabla)).1 = b ∧
        r.varname = v
    · rw [if_pos hc, if_pos hc]
      exact List.Forall₂.cons
        ⟨rfl, localEventsWith_alookup keyf hk r.categorias⟩ ih
    · rw [if_neg hc, if_neg hc]
      exact ih

theorem insertLe_rank_forall₂ {x y : Nat × List (String × String)}
    {l₁ l₂ : List (Nat × List (String × String))}
    (hxy : RelEv x y) (hl : List.Forall₂ RelEv l₁ l₂) :
    List.Forall₂ RelEv (insertLe rankLe x l₁) (insertLe rankLe y l₂) := by
  induction hl with
  | nil => exact List.Forall₂.cons hxy List.Forall₂.nil
  | @cons a b l₁' l₂' hab hrest ih =>
    unfold insertLe
    have hranks : rankLe x a = rankLe y b := by
      unfold rankLe
      rw [hxy.1, hab.1]
    by_cases hr : rankLe x a
    · rw [if_pos hr, if_pos (hranks ▸ hr)]
      exact List.Forall₂.cons hxy (List.Forall₂.cons hab hrest)
    · rw [if_neg hr, if_neg (fun hr2 => hr (hranks ▸ hr2))]
      exact List.Forall₂.cons hab ih

theorem sortLe_rank_forall₂ {l₁ l₂ : List (Nat × List (String × String))}
    (hl : List.Forall₂ RelEv l₁ l₂) :
    List.Forall₂ RelEv (sortLe rankLe l₁) (sortLe rankLe l₂) := by
  induction hl with
  | nil => exact List.Forall₂.nil
  | cons hab hrest ih =>
    exact insertLe_rank_forall₂ hab ih

theorem flatten_alookup_forall₂ {S₁ S₂ : List (Nat × List (String × String))}
    (h : List.Forall₂ RelEv S₁ S₂) (k : String) :
    alookup ((S₁.map (fun e => e.2)).flatten) k =
      alookup ((S₂.map (fun e => e.2)).flatten) k := by
  induction h with
  | nil => rfl
  | cons hab hrest ih =>
    simp only [List.map_cons, List.flatten_cons]
    rw [alookup_append, alookup_append, hab.2 k, ih]

theorem consolidatedWith_alookup (keyf : String → List String)
    (hk : ∀ c, (keyf c).Perm (normalize_code_keys c))
    (rows : List DictRow) (b v k : String) :
    alookup (consolidatedWith keyf rows b v) k =
      alookup (consolidated rows b v) k := by
  unfold consolidated consolidatedWith
  exact flatten_alookup_forall₂
    (sortLe_rank_forall₂ (groupFor_forall₂ keyf hk rows b v)) k

/-! ### Concrete fixtures used by witnesses and counterexamples -/

def tblA : Table := { cols := ["AGE"], rows := [[Cell.str "30"]] }

/-- A well-behaved HOGT file whose header is `AGE` and whose strict parse
succeeds with one data row. -/
def fileA : FileModel :=
  { fname := "enoe_HOGT_2024_trim1.csv",
    headBytes := [],
    sniffDelim := fun _ => ",",
    parseSample := fun _ _ => some ["AGE"],
    parseFile := fun _ _ => none,
    loadC := fun _ _ => some tblA,
    loadPy := fun _ _ => PyParse.otherErr,
    loadLossy := fun _ => none }

def tblB : Table := { cols := ["age"], rows := [[Cell.str "40"], [Cell.str "41"]] }

/-- A second HOGT file whose single column differs from `fileA`'s only in
case, with two data rows. -/
def fileB : FileModel :=
  { fname := "enoe_hogt_2024_trim2.csv",
    headBytes := [],
    sniffDelim := fun _ => ",",
    parseSample := fun _ _ => some ["age"],
    parseFile := fun _ _ => none,
    loadC := fun _ _ => some tblB,
    loadPy := fun _ _ => PyParse.otherErr,
    loadLossy := fun _ => none }

/-- The consolidated HOGT table the pipeline produces from `fileA` and
`fileB`. -/
def outAB : Table :=
  { cols := ["anio", "trimestre", "anio_trimestre", "AGE", "age"],
    rows := [[Cell.int 2024, Cell.int 1, Cell.str "2024T1", Cell.str "30", Cell.na],
             [Cell.int 2024, Cell.int 2, Cell.str "2024T2", Cell.na, Cell.str "40"],
             [Cell.int 2024, Cell.int 2, Cell.str "2024T2", Cell.na, Cell.str "41"]] }

/-- A HOGT file whose header scan succeeds but on which all four stages of
`read_full_csv_robust` fail: the C parse raises, the python parse raises
UnicodeDecodeError under every encoding, and the lossy stage-4 parse also
raises. -/
def fileC : FileModel :=
  { fname := "enoe_hogt_2023_trim4.csv",
    headBytes := [],
    sniffDelim := fun _ => ",",
    parseSample := fun _ _ => some ["X"],
    parseFile := fun _ _ => none,
    loadC := fun _ _ => none,
    loadPy := fun _ _ => PyParse.unicodeErr,
    loadLossy := fun _ => none }

/-- A VIVT file on which every header-scan candidate yields zero columns or
raises, so `headers_only` fails. -/
def fileE : FileModel :=
  { fname := "enoe_vivt_extra.csv",
    headBytes := [],
    sniffDelim := fun _ => ",",
    parseSample := fun _ _ => some [],
    parseFile := fun _ _ => none,
    loadC := fun _ _ => none,
    loadPy := fun _ _ => PyParse.otherErr,
    loadLossy := fun _ => none }

/-- The pass-1 descriptor of `fileC`. -/
def fiC : FileInfo :=
  ⟨fileC, "HOGT", some (2023, 4), "utf-8", ",", ["X"]⟩

/-- The 2022Q2/2024Q4 dictionary example of the specification, listed with
the more recent release first so that the merge order is decided by the
release rank, not by document order. -/
def rowsC3 : List DictRow :=
  [⟨"SDEMT424", "CLASE", [("01", "Informal")]⟩,
   ⟨"SDEMT222", "CLASE", [("01", "Formal")]⟩]

/-- A dictionary storing a label under the numeric code `1`. -/
def rowsC4 : List DictRow :=
  [⟨"SDEMT122", "CLASE", [("1", "Uno")]⟩]

/-- A geographic catalog table missing the expected column NOM_MUN. -/
def catBad : Table :=
  { cols := ["CVE_ENT", "NOM_ENT", "CVE_MUN"],
    rows := [[Cell.str "09", Cell.str "Ciudad de Mexico", Cell.str "002"]] }

/-- A consolidated table a labeling run would receive. -/
def pqX : Table := { cols := ["ent"], rows := [[Cell.str "9"]] }

/-- A table with a PER column whose record-level period contradicts the
filename-embedded period. -/
def tW : Table := { cols := ["per"], rows := [[Cell.str "523"]] }

/-! ### C1 -/

/-- C1 as stated is false on the code: pass 1 deduplicates column names
exactly (a Python `set` of verbatim strings) and only the ordering is
case-insensitive, so two contributing files whose headers differ only in
case ("AGE" and "age") both reach the final schema — the final columns are
not case-insensitively deduplicated. -/
theorem schema_not_ci_deduped_counterexample :
    (pipeline_module [fileA, fileB] "HOGT").map Table.cols =
      some ["anio", "trimestre", "anio_trimestre", "AGE", "age"] ∧
    ¬ (["anio", "trimestre", "anio_trimestre", "AGE", "age"] : List String).Pairwise
        (fun a b => pyLower a ≠ pyLower b) := by
  constructor
  · decide
  · decide

/-- C1 (amended): for every module output, the physical columns are exactly
`final_cols` of the pass-1 union: the three fixed metadata columns followed
by the union of the contributing files' header columns deduplicated
case-SENSITIVELY (exact strings) and ordered case-insensitively
(sorted by lower-cased name); no observed column is dropped, and no column
beyond the metadata and the observed ones is invented. -/
theorem final_schema_union_exact_dedup (files : List FileModel) (m : String)
    (out : Table) (h : pipeline_module files m = some out) :
    out.cols = final_cols (unionForModule (pass1 files) m) ∧
    (∃ rest, out.cols = metaNames ++ rest ∧
      rest.Pairwise (fun a b => lowerLe a b = true)) ∧
    out.cols.Nodup ∧
    (∀ fi ∈ (pass1 files).info, fi.mod = m → ∀ c ∈ fi.cols, c ∈ out.cols) ∧
    (∀ c ∈ out.cols, c ∈ metaNames ∨
      ∃ fi ∈ (pass1 files).info, fi.mod = m ∧ c ∈ fi.cols) := by
  have hcols : out.cols = final_cols (unionForModule (pass1 files) m) := by
    unfold pipeline_module build_module at h
    cases hseq : seqOption (((pass1 files).info.filter
        (fun fi => fi.mod == m)).map (fun fi =>
          load_one fi.file fi.encoding fi.delimiter fi.yt
            (final_cols (unionForModule (pass1 files) m)))) with
    | none => rw [hseq] at h; exact absurd h (by simp)
    | some ts =>
      rw [hseq] at h
      obtain ⟨p0, rest, hts, hoc, -⟩ := write_single_parquet_some ts out h
      have hf2 := seqOption_forall₂ hseq
      rw [hts] at hf2
      cases hfis : (pass1 files).info.filter (fun fi => fi.mod == m) with
      | nil =>
        rw [hfis] at hf2
        simp only [List.map_nil] at hf2
        cases hf2
      | cons fi0 fis' =>
        rw [hfis] at hf2
        simp only [List.map_cons] at hf2
        have hload := (List.forall₂_cons.mp hf2).1
        obtain ⟨df, -, hp0c, -⟩ := load_one_some _ _ _ _ _ _ hload
        rw [hoc, hp0c]
  refine ⟨hcols, ?_, ?_, ?_, ?_⟩
  · refine ⟨(sortLe lowerLe (unionForModule (pass1 files) m)).filter
      (fun c => !(metaNames.contains c)), ?_, ?_⟩
    · rw [hcols]; rfl
    · exact final_cols_tail_sorted _
  · rw [hcols]
    exact final_cols_nodup _ (nodup_unionForModule _ _)
  · intro fi hfi hm c hc
    rw [hcols]
    apply observed_mem_final_cols
    exact (mem_unionForModule _ _ _).mpr ⟨fi, hfi, hm, hc⟩
  · intro c hc
    rw [hcols] at hc
    rcases (mem_final_cols _ _).mp hc with hmeta | ⟨hu, -⟩
    · exact Or.inl hmeta
    · exact Or.inr ((mem_unionForModule _ _ _).mp hu)

/-- Witness for the amended C1 at the concrete two-file module. -/
theorem final_schema_union_exact_dedup_witness :
    outAB.cols = final_cols (unionForModule (pass1 [fileA, fileB]) "HOGT") ∧
    outAB.cols.Nodup :=
  have h := final_schema_union_exact_dedup [fileA, fileB] "HOGT" outAB (by decide)
  ⟨h.1, h.2.2.1⟩

/-! ### C2 -/

/-- The number of rows the robust loader obtains from a scanned file
(0 when every loader stage fails). -/
def srcRowCount (fi : FileInfo) : Nat :=
  match read_full_csv_robust fi.file fi.encoding fi.delimiter with
  | some t => t.rows.length
  | none => 0

theorem map_len_of_loads (final : List String) (fis : List FileInfo)
    (ts : List Table)
    (h : List.Forall₂ (fun fi t =>
      load_one fi.file fi.encoding fi.delimiter fi.yt final = some t) fis ts) :
    ts.map (fun t => t.rows.length) = fis.map srcRowCount := by
  induction h with
  | nil => rfl
  | @cons fi t fis' ts' hload hrest ih =>
    obtain ⟨df, hdf, -, hrows⟩ := load_one_some _ _ _ _ _ _ hload
    simp only [List.map_cons, ih]
    congr 1
    rw [hrows]
    unfold srcRowCount
    rw [hdf]

/-- C2: when a module's consolidated table is produced, its row count is
exactly the sum of the row counts of the module's successfully loaded
files; files skipped in pass 1 (unclassifiable or undecodable) are not in
the pass-1 descriptor list and therefore contribute zero rows, and the
streaming writer neither duplicates nor drops rows. -/
theorem row_count_conservation (files : List FileModel) (m : String)
    (out : Table) (h : pipeline_module files m = some out) :
    out.rows.length =
      (((pass1 files).info.filter (fun fi => fi.mod == m)).map
        srcRowCount).sum := by
  unfold pipeline_module build_module at h
  cases hseq : seqOption (((pass1 files).info.filter
      (fun fi => fi.mod == m)).map (fun fi =>
        load_one fi.file fi.encoding fi.delimiter fi.yt
          (final_cols (unionForModule (pass1 files) m)))) with
  | none => rw [hseq] at h; exact absurd h (by simp)
  | some ts =>
    rw [hseq] at h
    obtain ⟨p0, rest, hts, -, hlen⟩ := write_single_parquet_some ts out h
    rw [hlen]
    have hf2 := List.forall₂_map_left_iff.mp (seqOption_forall₂ hseq)
    rw [map_len_of_loads _ _ _ hf2]

/-- Witness: the two-file HOGT module has 1 + 2 = 3 output rows. -/
theorem row_count_conservation_witness :
    outAB.rows.length =
      (((pass1 [fileA, fileB]).info.filter (fun fi => fi.mod == "HOGT")).map
        srcRowCount).sum :=
  row_count_conservation [fileA, fileB] "HOGT" outAB (by decide)

/-! ### C3 -/

theorem rankLe_total (a b : Nat × List (String × String)) :
    rankLe a b = true ∨ rankLe b a = true := by
  unfold rankLe
  rcases Nat.le_total a.1 b.1 with h | h
  · left; exact decide_eq_true h
  · right; exact decide_eq_true h

theorem rankLe_trans (a b c : Nat × List (String × String))
    (h1 : rankLe a b = true) (h2 : rankLe b c = true) : rankLe a c = true := by
  unfold rankLe at *
  exact decide_eq_true (Nat.le_trans (of_decide_eq_true h1) (of_decide_eq_true h2))

/-- C3: the consolidated mapping merges the release dictionaries of a
`(module-base, variable)` group in ascending release-rank order with later
entries overwriting earlier ones, so a key that resolves at a maximal rank
`r2` (all equal-rank resolutions agreeing) resolves to the rank-`r2` label
in the merged mapping — the higher rank wins. -/
theorem dictionary_merge_later_rank_wins (rows : List DictRow)
    (b v k l2 : String) (r2 : Nat) (m2 : List (String × String))
    (hmem : (r2, m2) ∈ groupFor rows b v)
    (hl2 : alookup m2 k = some l2)
    (hmax : ∀ e ∈ groupFor rows b v, alookup e.2 k ≠ none → e.1 ≤ r2)
    (hagree : ∀ e ∈ groupFor rows b v, e.1 = r2 → alookup e.2 k ≠ none →
      alookup e.2 k = some l2) :
    alookup (consolidated rows b v) k = some l2 := by
  unfold consolidated consolidatedWith
  apply merged_lookup_top_rank _ k l2 r2
  · exact (sortLe_pairwise rankLe rankLe_total rankLe_trans _).imp
      (fun h => of_decide_eq_true h)
  · exact ⟨(r2, m2), (mem_sortLe rankLe _ _).mpr hmem, rfl, hl2⟩
  · intro e he x hx
    have he' := (mem_sortLe rankLe _ _).mp he
    have hne : alookup e.2 k ≠ none := by rw [hx]; simp
    refine ⟨hmax e he' hne, ?_⟩
    intro hge
    have heq : e.1 = r2 := Nat.le_antisymm (hmax e he' hne) hge
    have := hagree e he' heq hne
    rw [hx] at this
    exact Option.some.inj this

/-- Witness: code "01" = "Formal" at release 2022Q2 (rank 20222) and
"Informal" at release 2024Q4 (rank 20244), documents listed newest-first,
resolve to "Informal". -/
theorem dictionary_merge_later_rank_wins_witness :
    alookup (consolidated rowsC3 "SDEMT" "CLASE") "01" = some "Informal" :=
  dictionary_merge_later_rank_wins rowsC3 "SDEMT" "CLASE" "01" "Informal"
    20244 [("01", "Informal"), ("1", "Informal")]
    (by decide) (by decide) (by decide) (by decide)

/-! ### C4 -/

/-- C4: in every consolidated mapping that stores a label under the key
`"1"`, looking up the raw values `"1"`, `"01"` and `" 1 "` each returns
that label: lookup strips whitespace and generates the same padded and
unpadded variants that consolidation inserted, and insertion always writes
`"1"` and `"01"` together. -/
theorem lookup_normalization (rows : List DictRow) (b v L : String)
    (h : alookup (consolidated rows b v) "1" = some L) :
    lookup_udf (consolidated rows b v) (some "1") = some L ∧
    lookup_udf (consolidated rows b v) (some "01") = some L ∧
    lookup_udf (consolidated rows b v) (some " 1 ") = some L := by
  have hbal := bal_consolidated rows b v
  unfold Bal at hbal
  have h01 : alookup (consolidated rows b v) "01" = some L := by
    rw [← hbal]; exact h
  have hv1 : norm_variants (some "1") = ["1", "01"] := by decide
  have hv01 : norm_variants (some "01") = ["01", "1"] := by decide
  have hvsp : norm_variants (some " 1 ") = ["1", "01"] := by decide
  refine ⟨?_, ?_, ?_⟩
  · unfold lookup_udf
    rw [hv1]
    simp [List.findSome?_cons, h]
  · unfold lookup_udf
    rw [hv01]
    simp [List.findSome?_cons, h01]
  · unfold lookup_udf
    rw [hvsp]
    simp [List.findSome?_cons, h]

/-- Witness: a dictionary with code `1` = `Uno`; all three raw spellings
resolve to `Uno`. -/
theorem lookup_normalization_witness :
    lookup_udf (consolidated rowsC4 "SDEMT" "CLASE") (some " 1 ") = some "Uno" ∧
    lookup_udf (consolidated rowsC4 "SDEMT" "CLASE") (some "01") = some "Uno" :=
  ⟨(lookup_normalization rowsC4 "SDEMT" "CLASE" "Uno" (by decide)).2.2,
   (lookup_normalization rowsC4 "SDEMT" "CLASE" "Uno" (by decide)).2.1⟩

/-! ### C5 -/

/-- C5 as stated is false on the code: a file on which all four loader
stages fail raises inside its delayed `load_one` task, and the exception
propagates through `compute` in the streaming writer, aborting the whole
module.  `fileC` fails every stage while `fileA` loads fine, yet the
two-file module produces no output at all — `fileA`'s rows are not written
— whereas the module with `fileA` alone succeeds. -/
theorem loader_failure_not_isolated_counterexample :
    read_full_csv_robust fileC "utf-8" "," = none ∧
    (read_full_csv_robust fileA "utf-8" ",").isSome = true ∧
    pipeline_module [fileA, fileC] "HOGT" = none ∧
    (pipeline_module [fileA] "HOGT").isSome = true := by
  refine ⟨by decide, by decide, by decide, by decide⟩

/-- C5 (amended): a file that fails all four loader fallback stages is not
dropped; its exception aborts the module build, which then writes no
output.  (File-level isolation exists only in pass 1, where a file whose
header scan fails is skipped — see the C6 theorem.) -/
theorem load_failure_aborts_module (files : List FileInfo)
    (final : List String)
    (h : ∃ fi ∈ files,
      read_full_csv_robust fi.file fi.encoding fi.delimiter = none) :
    build_module files final = none := by
  obtain ⟨fi, hfi, hnone⟩ := h
  have hload : load_one fi.file fi.encoding fi.delimiter fi.yt final = none := by
    unfold load_one
    rw [hnone]
    rfl
  have hseq : seqOption (files.map (fun fi =>
      load_one fi.file fi.encoding fi.delimiter fi.yt final)) = none := by
    apply seqOption_none_mem
    rw [List.mem_map]
    exact ⟨fi, hfi, hload⟩
  unfold build_module
  rw [hseq]

/-- Witness: the module consisting of the stage-4-failing `fileC` alone
builds nothing. -/
theorem load_failure_aborts_module_witness :
    build_module [fiC] (final_cols ["X"]) = none :=
  load_failure_aborts_module [fiC] (final_cols ["X"])
    ⟨fiC, List.mem_singleton_self fiC, by decide⟩

/-! ### C6 -/

/-- C6: (1) every file kept by pass 1 was accepted by `headers_only` with
its recorded (encoding, delimiter) pair and a header parse of more than
zero columns; (2) a classified file whose header scan fails is excluded
from the run, counted as fatal-for-file, and the rest of the batch is
processed exactly as if the file were absent; (3) when no candidate
combination yields more than zero columns, the header scan fails. -/
theorem header_detection_sound (files : List FileModel) :
    (∀ fi ∈ (pass1 files).info,
      headers_only fi.file = some (fi.cols, fi.encoding, fi.delimiter) ∧
      0 < fi.cols.length) ∧
    (∀ (xs ys : List FileModel) (bad : FileModel) (m' : String),
      detect_module_from_filename bad.fname = some m' →
      headers_only bad = none →
      (pass1 (xs ++ bad :: ys)).info = (pass1 (xs ++ ys)).info ∧
      (pass1 (xs ++ bad :: ys)).fatals = (pass1 (xs ++ ys)).fatals + 1) ∧
    (∀ f : FileModel,
      (∀ enc ∈ encodingsTry f, tryEncoding f enc = none ∧ tryGrid f enc = none) →
      headers_only f = none) := by
  refine ⟨?_, ?_, ?_⟩
  · intro fi hfi
    have h := pass1_info_mem files fi hfi
    exact ⟨h.2.1, headers_only_pos fi.file fi.cols fi.encoding fi.delimiter h.2.1⟩
  · intro xs ys bad m' hdet hnone
    have hstepI : (pass1Step (pass1 xs) bad).info = (pass1 xs).info := by
      unfold pass1Step
      rw [hdet, hnone]
    have hstepF : (pass1Step (pass1 xs) bad).fatals = (pass1 xs).fatals + 1 := by
      unfold pass1Step
      rw [hdet, hnone]
    have hL : pass1 (xs ++ bad :: ys) =
        ys.foldl pass1Step (pass1Step (pass1 xs) bad) := by
      unfold pass1
      rw [List.foldl_append]
      rfl
    have hR : pass1 (xs ++ ys) = ys.foldl pass1Step (pass1 xs) := by
      unfold pass1
      rw [List.foldl_append]
    have hsplitL := pass1_fold_split ys (pass1Step (pass1 xs) bad)
    have hsplitR := pass1_fold_split ys (pass1 xs)
    constructor
    · rw [hL, hR, hsplitL.1, hsplitR.1, hstepI]
    · rw [hL, hR, hsplitL.2, hsplitR.2, hstepF]
      omega
  · intro f h
    unfold headers_only
    have h1 : (encodingsTry f).findSome? (tryEncoding f) = none := by
      rw [List.findSome?_eq_none_iff]
      intro e he
      exact (h e he).1
    have h2 : (encodingsTry f).findSome? (tryGrid f) = none := by
      rw [List.findSome?_eq_none_iff]
      intro e he
      exact (h e he).2
    rw [h1, h2]

/-- Witness: adding the undecodable `fileE` to a batch leaves the batch's
descriptors unchanged and bumps the fatal count by one. -/
theorem header_detection_sound_witness :
    (pass1 ([fileA] ++ fileE :: [])).info = (pass1 ([fileA] ++ [])).info ∧
    (pass1 ([fileA] ++ fileE :: [])).fatals = (pass1 ([fileA] ++ [])).fatals + 1 :=
  (header_detection_sound [fileA]).2.1 [fileA] [] fileE "VIVT"
    (by decide) (by decide)


/-! ### C7 -/

theorem string_mk_append (a b : List Char) :
    (⟨a⟩ : String) ++ ⟨b⟩ = ⟨a ++ b⟩ := rfl

theorem labelCell_nat (y q : Nat) :
    labelCell (Cell.int y) (Cell.int q) =
      Cell.str (natStr y ++ "T" ++ natStr q) := by
  show Cell.str ⟨intDigits (y : Int) ++ 'T' :: intDigits (q : Int)⟩ = _
  have hy : intDigits (y : Int) = natDigits y := by
    unfold intDigits
    rw [if_neg (by omega), Int.natAbs_ofNat]
  have hq : intDigits (q : Int) = natDigits q := by
    unfold intDigits
    rw [if_neg (by omega), Int.natAbs_ofNat]
  rw [hy, hq]
  show _ = Cell.str ((⟨natDigits y⟩ : String) ++ ⟨['T']⟩ ++ ⟨natDigits q⟩)
  rw [string_mk_append, string_mk_append]
  congr 2
  simp

/-- C7: when the filename embeds `_20YY_trimQ`, the parsed (year, quarter)
is applied uniformly: every row receives `anio = year`,
`trimestre = quarter` and `anio_trimestre = "{year}T{quarter}"`, no record
field consulted; only when the filename has no such pattern and the table
has a PER column are the values derived per record — first digit of the
zero-filled digit string is the quarter, the next two digits are the year
offset from 2000. -/
theorem filename_metadata_precedence (t : Table) (fname : String) :
    (∀ y q, parse_year_trim_from_name fname = some (y, q) →
      (add_meta_cols t (parse_year_trim_from_name fname)).rows =
        t.rows.map (fun r => Cell.int (y : Int) :: Cell.int (q : Int) ::
          Cell.str (natStr y ++ "T" ++ natStr q) :: r)) ∧
    (∀ j, parse_year_trim_from_name fname = none →
      find_col_ci t.cols "per" = some j →
      (add_meta_cols t (parse_year_trim_from_name fname)).rows =
        t.rows.map (fun r =>
          optCellInt (derivePerRow r j).1 :: optCellInt (derivePerRow r j).2 ::
            labelCell (optCellInt (derivePerRow r j).1)
              (optCellInt (derivePerRow r j).2) :: r)) ∧
    (∀ r j, derivePerRow r j =
      (some (2000 +
        (10 * digitVal ((zfill3 (digitsOnly (cellToStr (r.getD j Cell.na)))).getD 1 '0') +
          digitVal ((zfill3 (digitsOnly (cellToStr (r.getD j Cell.na)))).getD 2 '0'))),
       some (digitVal ((zfill3 (digitsOnly (cellToStr (r.getD j Cell.na)))).getD 0 '0')))) := by
  refine ⟨?_, ?_, ?_⟩
  · intro y q h
    rw [h]
    unfold add_meta_cols
    simp only
    apply List.map_congr_left
    intro r hr
    rw [labelCell_nat]
  · intro j hnone hper
    rw [hnone]
    unfold add_meta_cols
    rw [hper]
  · intro r j
    rfl

/-- Witness: a file named `…_2024_trim3…` stamps (2024, 3, "2024T3") on a
row whose PER field says 2023Q5; without the pattern the same row derives
(2023, 5, "2023T5") from PER. -/
theorem filename_metadata_precedence_witness :
    parse_year_trim_from_name "enoe_hogt_2024_trim3.csv" = some (2024, 3) ∧
    (add_meta_cols tW (parse_year_trim_from_name "enoe_hogt_2024_trim3.csv")).rows =
      [[Cell.int 2024, Cell.int 3, Cell.str "2024T3", Cell.str "523"]] ∧
    (add_meta_cols tW (parse_year_trim_from_name "enoe_hogt.csv")).rows =
      [[Cell.int 2023, Cell.int 5, Cell.str "2023T5", Cell.str "523"]] := by
  refine ⟨by decide, ?_, ?_⟩
  · have h := (filename_metadata_precedence tW "enoe_hogt_2024_trim3.csv").1
      2024 3 (by decide)
    rw [h]
    decide
  · have h := (filename_metadata_precedence tW "enoe_hogt.csv").2.1
      0 (by decide) (by decide)
    rw [h]
    decide

/-! ### C8 -/

/-- C8: if the geographic catalog lacks any of CVE_ENT, NOM_ENT, CVE_MUN,
NOM_MUN, `read_catalog` raises and the labeling stage aborts before
touching any table: no (even partially) labeled output is produced.  This
is a hard failure, unlike the absorbed file-level errors of pass 1. -/
theorem catalog_schema_mismatch_aborts (catalog : Table)
    (parquets : List Table)
    (h : ∃ c ∈ expectedCatCols, c ∉ catalog.cols) :
    read_catalog catalog = none ∧
    run_label_ent_mun catalog parquets = none := by
  obtain ⟨c, hc, hnc⟩ := h
  have hall : expectedCatCols.all (fun c => catalog.cols.contains c) = false := by
    rw [Bool.eq_false_iff]
    intro hall
    rw [List.all_eq_true] at hall
    exact hnc ((contains_true_iff _ _).mp (hall c hc))
  have hrc : read_catalog catalog = none := by
    unfold read_catalog
    rw [hall]
    rfl
  refine ⟨hrc, ?_⟩
  unfold run_label_ent_mun
  rw [hrc]

/-- Witness: a catalog missing NOM_MUN aborts the stage with no output. -/
theorem catalog_schema_mismatch_aborts_witness :
    run_label_ent_mun catBad [pqX] = none :=
  (catalog_schema_mismatch_aborts catBad [pqX]
    ⟨"NOM_MUN", by decide, by decide⟩).2

/-! ### C9 -/

/-- C9: label application is a deterministic function of the raw value and
the dictionary corpus.  The only unspecified behaviour in the Python code
is the iteration order of the key-variant set built at insertion time;
for every ordering (any permutation of the normalised variants) the
consolidated mapping resolves every raw value identically, so two runs on
an unchanged corpus produce identical label values. -/
theorem label_application_deterministic (keyf : String → List String)
    (hk : ∀ c, (keyf c).Perm (normalize_code_keys c))
    (rows : List DictRow) (b v : String) (val : Option String) :
    lookup_udf (consolidatedWith keyf rows b v) val =
      lookup_udf (consolidated rows b v) val := by
  unfold lookup_udf
  have hfun : (fun k => alookup (consolidatedWith keyf rows b v) k) =
      (fun k => alookup (consolidated rows b v) k) := by
    funext k
    exact consolidatedWith_alookup keyf hk rows b v k
  rw [hfun]

/-- Witness: re-running with the identical variant order (the reflexive
permutation) on a concrete corpus yields the same label. -/
theorem label_application_deterministic_witness :
    lookup_udf (consolidatedWith normalize_code_keys rowsC3 "SDEMT" "CLASE")
        (some "1") =
      lookup_udf (consolidated rowsC3 "SDEMT" "CLASE") (some "1") :=
  label_application_deterministic normalize_code_keys
    (fun _ => List.Perm.refl _) rowsC3 "SDEMT" "CLASE" (some "1")

/-! ### C10 -/

/-- C10: no consolidated mapping contains the empty string as a key
(empty or whitespace-only codes and labels are skipped at insertion, and
every normalised variant of a kept code is non-empty), and label lookup of
a null, empty or whitespace-only raw value returns null. -/
theorem empty_and_null_codes_unmapped (rows : List DictRow) (b v : String) :
    (∀ kv ∈ consolidated rows b v, kv.1 ≠ "") ∧
    alookup (consolidated rows b v) "" = none ∧
    lookup_udf (consolidated rows b v) none = none ∧
    (∀ s : String, pyStrip s = "" →
      lookup_udf (consolidated rows b v) (some s) = none) := by
  have hkeys := consolidated_keys_ne_empty rows b v
  have hempty : alookup (consolidated rows b v) "" = none :=
    alookup_no_key hkeys
  refine ⟨hkeys, hempty, rfl, ?_⟩
  intro s hs
  have hv : norm_variants (some s) = [""] := by
    simp only [norm_variants]
    rw [hs]
    decide
  unfold lookup_udf
  rw [hv, List.findSome?_cons, hempty]
  rfl

/-- Witness: looking up a whitespace-only raw value against a concrete
consolidated mapping returns null, and a concrete stored key is
non-empty. -/
theorem empty_and_null_codes_unmapped_witness :
    lookup_udf (consolidated rowsC4 "SDEMT" "CLASE") (some "   ") = none ∧
    ("1", "Uno").1 ≠ "" :=
  ⟨(empty_and_null_codes_unmapped rowsC4 "SDEMT" "CLASE").2.2.2 "   " (by decide),
   (empty_and_null_codes_unmapped rowsC4 "SDEMT" "CLASE").1 ("1", "Uno") (by decide)⟩
